import Mathlib

/-!
# ELF size resolver (`src/elf.c`)

A shallow embedding of `get_elf_size` and its helpers, followed by theorems
about the resolved size.

Platform conventions of the embedding (LP64, as on Linux x86_64/aarch64/ppc64):
`int` is 32 bits, `off_t`, `ssize_t` and `size_t` are 64 bits, conversion of
an out-of-range unsigned value to a signed type wraps modulo `2^64`, and a
signed `int` overflow is undefined behaviour, represented by `none`.

The C library is modelled as POSIX specifies it and Linux implements it:
`fread` delivers the bytes between the current position and the end of the
file, at most the number requested, and advances the position by the number delivered; `fseeko` with
`SEEK_SET` fails (`EINVAL`) and leaves the position where it was when the
offset is negative or larger than the largest offset the file system supports
(`s_maxbytes` in Linux, `2^44 - 4096` on ext4 with 4 KiB blocks, `2^63 - 1` on
tmpfs); any other offset is accepted, also one beyond the end of the file. The
size of a file never exceeds that largest offset, so the offsets up to the
size of the file are always accepted.
-/

namespace ElfSize

/-! ## Bytes, host byte order, `<elf.h>` constants -/

abbrev Byte := Fin 256

/-- The byte order of the machine the program is compiled for
(`__BYTE_ORDER`). -/
inductive Endian where
  | little
  | big
deriving DecidableEq, Repr

/-- From `<elf.h>`: size of the identification prefix `e_ident`. -/
abbrev EI_NIDENT : Nat := 16
/-- From `<elf.h>`: index of the class byte in `e_ident`. -/
abbrev EI_CLASS : Nat := 4
/-- From `<elf.h>`: index of the data-encoding byte in `e_ident`. -/
abbrev EI_DATA : Nat := 5
/-- From `<elf.h>`: class marker of 32-bit objects. -/
abbrev ELFCLASS32 : Nat := 1
/-- From `<elf.h>`: class marker of 64-bit objects. -/
abbrev ELFCLASS64 : Nat := 2
/-- From `<elf.h>`: data-encoding marker, two's complement little-endian. -/
abbrev ELFDATA2LSB : Nat := 1
/-- From `<elf.h>`: data-encoding marker, two's complement big-endian. -/
abbrev ELFDATA2MSB : Nat := 2

/-- Lines 7-13: the data-encoding marker of the host. -/
def ELFDATANATIVE : Endian → Nat
  | .little => ELFDATA2LSB
  | .big => ELFDATA2MSB

/-- From `<elf.h>`: `sizeof(Elf32_Ehdr)`. -/
abbrev sizeof_Elf32_Ehdr : Nat := 52
/-- From `<elf.h>`: `sizeof(Elf64_Ehdr)`. -/
abbrev sizeof_Elf64_Ehdr : Nat := 64
/-- From `<elf.h>`: `sizeof(Elf32_Shdr)`. -/
abbrev sizeof_Elf32_Shdr : Nat := 40
/-- From `<elf.h>`: `sizeof(Elf64_Shdr)`. -/
abbrev sizeof_Elf64_Shdr : Nat := 64

/-! ## Integer conversions -/

/-- Conversion to `uint16_t`. -/
def u16 (x : Nat) : Nat := x % 2 ^ 16
/-- Conversion to `uint32_t`. -/
def u32 (x : Nat) : Nat := x % 2 ^ 32
/-- Conversion to `uint64_t`. -/
def u64 (x : Nat) : Nat := x % 2 ^ 64

/-- Conversion of an `int` to `uint64_t` (sign extension, modulo `2^64`). -/
def u64_of_int (x : Int) : Nat := (x % 2 ^ 64).toNat

/-- Conversion of a `uint64_t` to `off_t` (two's complement). -/
def off_t_of_u64 (x : Nat) : Int :=
  if x % 2 ^ 64 < 2 ^ 63 then ((x % 2 ^ 64 : Nat) : Int)
  else ((x % 2 ^ 64 : Nat) : Int) - 2 ^ 64

/-- Multiplication of two `int` values; `none` when the product does not fit
in 32 bits, that is, lies outside `[-2^31, 2^31)` (undefined behaviour in C). -/
def int_mul (a b : Int) : Option Int :=
  if (a * b).natAbs < 2 ^ 31 ∨ a * b = -(2 ^ 31) then some (a * b) else none

/-! ## Byte swapping (lines 15-24) -/

/-- Lines 15-16, on an argument of type `uint16_t`. -/
def bswap_16 (value : Nat) : Nat :=
  ((value &&& 0xff) <<< 8) ||| (value >>> 8)

/-- Lines 18-20. -/
def bswap_32 (value : Nat) : Nat :=
  u32 (u32 (bswap_16 (u16 (value &&& 0xffff))) <<< 16)
    ||| u32 (bswap_16 (u16 (value >>> 16)))

/-- Lines 22-24. -/
def bswap_64 (value : Nat) : Nat :=
  u64 (u64 (bswap_32 (u32 (value &&& 0xffffffff))) <<< 32)
    ||| u64 (bswap_32 (u32 (value >>> 32)))

/-! ## The module-level header (line 26) -/

/-- The fields of the static `Elf64_Ehdr ehdr` that the program reads or
writes; its other fields are never accessed. -/
structure Elf64_Ehdr where
  e_ident : List Byte
  e_shoff : Nat
  e_shentsize : Nat
  e_shnum : Nat
deriving DecidableEq, Repr

/-- Lines 28-33. -/
def file16_to_cpu (host : Endian) (ehdr : Elf64_Ehdr) (val : Nat) : Nat :=
  if (ehdr.e_ident.getD EI_DATA 0).val ≠ ELFDATANATIVE host then
    u16 (bswap_16 (u16 val))
  else u16 val

/-- Lines 35-41. -/
def file32_to_cpu (host : Endian) (ehdr : Elf64_Ehdr) (val : Nat) : Nat :=
  if (ehdr.e_ident.getD EI_DATA 0).val ≠ ELFDATANATIVE host then
    u32 (bswap_32 (u32 val))
  else u32 val

/-- Lines 43-49. -/
def file64_to_cpu (host : Endian) (ehdr : Elf64_Ehdr) (val : Nat) : Nat :=
  if (ehdr.e_ident.getD EI_DATA 0).val ≠ ELFDATANATIVE host then
    u64 (bswap_64 (u64 val))
  else u64 val

/-! ## Memory representation of the structures read from the file -/

/-- The number whose little-endian representation is the byte sequence. -/
def leVal : List Byte → Nat
  | [] => 0
  | b :: bs => b.val + 256 * leVal bs

/-- The value the host sees in an integer object whose memory holds the bytes
`bs`. -/
def hostVal (host : Endian) (bs : List Byte) : Nat :=
  match host with
  | .little => leVal bs
  | .big => leVal bs.reverse

/-- The value the host sees in a field of `w` bytes at offset `off` of a
structure whose memory holds the bytes `buf`. -/
def field (host : Endian) (buf : List Byte) (off w : Nat) : Nat :=
  hostVal host ((buf.drop off).take w)

/-! ## The stream -/

/-- A call made on the stream: the offset passed to `fseeko`, or the
position and the requested length of an `fread`. -/
inductive StreamOp where
  | seek (offset : Int)
  | read (pos : Nat) (n : Nat)
deriving DecidableEq, Repr

/-- An open stream: the largest offset the file system of the file supports,
the bytes of the file, the current position, and the calls made so far. -/
structure FILE where
  maxbytes : Nat
  data : List Byte
  pos : Nat
  trace : List StreamOp
deriving DecidableEq, Repr

/-- A call of `fopen(fname, "rb")`: `none` when the file cannot be opened.
`maxbytes` is the largest offset the file system of the file supports. -/
def fopen (maxbytes : Nat) (fname : Option (List Byte)) : Option FILE :=
  fname.map fun data => { maxbytes := maxbytes, data := data, pos := 0, trace := [] }

/-- The largest offset a seek on the stream accepts: that of the file system,
which is never below the size of the file. -/
def seek_limit (fd : FILE) : Nat := max fd.maxbytes fd.data.length

/-- A call of `fseeko(fd, offset, SEEK_SET)`, whose return value the program
ignores: it fails, and leaves the position where it was, when the offset is
negative or beyond the largest offset the file system supports. -/
def fseeko (fd : FILE) (offset : Int) : FILE :=
  if offset < 0 ∨ (seek_limit fd : Int) < offset then
    { fd with trace := fd.trace ++ [.seek offset] }
  else { fd with pos := offset.toNat, trace := fd.trace ++ [.seek offset] }

/-- A call of `fread(buf, 1, n, fd)`: the bytes delivered (their number is
the return value) and the stream afterwards. -/
def fread (fd : FILE) (n : Nat) : List Byte × FILE :=
  let got := (fd.data.drop fd.pos).take n
  (got, { fd with pos := fd.pos + got.length, trace := fd.trace ++ [.read fd.pos n] })

/-! ## The two decode paths -/

/-- Lines 72 and 108: `ehdr.e_shoff + (ehdr.e_shentsize * (ehdr.e_shnum - 1))`
assigned to an `off_t`. -/
def last_shdr_offset (ehdr : Elf64_Ehdr) : Option Int :=
  (int_mul (ehdr.e_shentsize : Int) ((ehdr.e_shnum : Int) - 1)).map fun p =>
    off_t_of_u64 (u64 (ehdr.e_shoff + u64_of_int p))

/-- Lines 82 and 118: `ehdr.e_shoff + (ehdr.e_shentsize * ehdr.e_shnum)`
assigned to an `off_t`. -/
def sht_end (ehdr : Elf64_Ehdr) : Option Int :=
  (int_mul (ehdr.e_shentsize : Int) (ehdr.e_shnum : Int)).map fun p =>
    off_t_of_u64 (u64 (ehdr.e_shoff + u64_of_int p))

/-- Lines 51-85. The result is the returned `off_t`, the module-level header
and the stream afterwards; `none` is undefined behaviour. -/
def read_elf32 (host : Endian) (ehdr : Elf64_Ehdr) (fd : FILE) :
    Option (Int × Elf64_Ehdr × FILE) :=
  let fd := fseeko fd 0
  let (ehdr32, fd) := fread fd sizeof_Elf32_Ehdr
  if ehdr32.length ≠ sizeof_Elf32_Ehdr then some (-1, ehdr, fd) else
  let ehdr := { ehdr with e_shoff := file32_to_cpu host ehdr (field host ehdr32 32 4) }
  let ehdr := { ehdr with e_shentsize := file16_to_cpu host ehdr (field host ehdr32 46 2) }
  let ehdr := { ehdr with e_shnum := file16_to_cpu host ehdr (field host ehdr32 48 2) }
  match last_shdr_offset ehdr with
  | none => none
  | some offset =>
    let fd := fseeko fd offset
    let (shdr32, fd) := fread fd sizeof_Elf32_Shdr
    if shdr32.length ≠ sizeof_Elf32_Shdr then some (-1, ehdr, fd) else
    match sht_end ehdr with
    | none => none
    | some sht_end =>
      let last_section_end := off_t_of_u64 (u64
        (file64_to_cpu host ehdr (field host shdr32 16 4)
          + file64_to_cpu host ehdr (field host shdr32 20 4)))
      some (if sht_end > last_section_end then sht_end else last_section_end, ehdr, fd)

/-- Lines 87-121. -/
def read_elf64 (host : Endian) (ehdr : Elf64_Ehdr) (fd : FILE) :
    Option (Int × Elf64_Ehdr × FILE) :=
  let fd := fseeko fd 0
  let (ehdr64, fd) := fread fd sizeof_Elf64_Ehdr
  if ehdr64.length ≠ sizeof_Elf64_Ehdr then some (-1, ehdr, fd) else
  let ehdr := { ehdr with e_shoff := file64_to_cpu host ehdr (field host ehdr64 40 8) }
  let ehdr := { ehdr with e_shentsize := file16_to_cpu host ehdr (field host ehdr64 58 2) }
  let ehdr := { ehdr with e_shnum := file16_to_cpu host ehdr (field host ehdr64 60 2) }
  match last_shdr_offset ehdr with
  | none => none
  | some offset =>
    let fd := fseeko fd offset
    let (shdr64, fd) := fread fd sizeof_Elf64_Shdr
    if shdr64.length ≠ sizeof_Elf64_Shdr then some (-1, ehdr, fd) else
    match sht_end ehdr with
    | none => none
    | some sht_end =>
      let last_section_end := off_t_of_u64 (u64
        (file64_to_cpu host ehdr (field host shdr64 24 8)
          + file64_to_cpu host ehdr (field host shdr64 32 8)))
      some (if sht_end > last_section_end then sht_end else last_section_end, ehdr, fd)

/-! ## The entry point -/

/-- What a call of `get_elf_size` leaves behind: the returned `ssize_t`, the
module-level header, and the calls made on the stream. -/
structure Outcome where
  ret : Int
  ehdr : Elf64_Ehdr
  trace : List StreamOp
deriving DecidableEq, Repr

/-- Lines 123-161. `maxbytes` is the largest offset the file system of the
file supports; `ehdr` is the module-level header as the previous call left it;
`fname` is the content of the named file, `none` when it cannot be opened; the
result `none` is undefined behaviour. -/
def get_elf_size (host : Endian) (maxbytes : Nat) (ehdr : Elf64_Ehdr)
    (fname : Option (List Byte)) : Option Outcome :=
  match fopen maxbytes fname with
  | none => some { ret := -1, ehdr := ehdr, trace := [] }
  | some fd =>
    let (ident, fd) := fread fd EI_NIDENT
    let ehdr := { ehdr with e_ident := ident ++ ehdr.e_ident.drop ident.length }
    if ident.length ≠ EI_NIDENT then some { ret := -1, ehdr := ehdr, trace := fd.trace } else
    if (ehdr.e_ident.getD EI_DATA 0).val ≠ ELFDATA2LSB
        ∧ (ehdr.e_ident.getD EI_DATA 0).val ≠ ELFDATA2MSB then
      some { ret := -1, ehdr := ehdr, trace := fd.trace }
    else if (ehdr.e_ident.getD EI_CLASS 0).val = ELFCLASS32 then
      (read_elf32 host ehdr fd).map fun r => { ret := r.1, ehdr := r.2.1, trace := r.2.2.trace }
    else if (ehdr.e_ident.getD EI_CLASS 0).val = ELFCLASS64 then
      (read_elf64 host ehdr fd).map fun r => { ret := r.1, ehdr := r.2.1, trace := r.2.2.trace }
    else some { ret := -1, ehdr := ehdr, trace := fd.trace }

/-- The value a call returns on a file that can be opened. -/
def returned (host : Endian) (maxbytes : Nat) (ehdr : Elf64_Ehdr) (file : List Byte) :
    Option Int :=
  (get_elf_size host maxbytes ehdr (some file)).map Outcome.ret

/-! ## The file as the specification reads it -/

/-- The value of a byte sequence read in the byte order that the
data-encoding marker `data` names. -/
def fileOrderVal (data : Nat) (bs : List Byte) : Nat :=
  if data = ELFDATA2MSB then leVal bs.reverse else leVal bs

/-- The data-encoding byte of the identification prefix of a file. -/
def dataByte (f : List Byte) : Nat := (f.getD EI_DATA 0).val

/-- The class byte of the identification prefix of a file. -/
def classByte (f : List Byte) : Nat := (f.getD EI_CLASS 0).val

/-- The field of `w` bytes at offset `off` of a file, read in the file's own
byte order. -/
def fileField (f : List Byte) (off w : Nat) : Nat :=
  fileOrderVal (dataByte f) ((f.drop off).take w)

/-- The `section_header_offset` of a 64-bit file. -/
def shoff64 (f : List Byte) : Nat := fileField f 40 8

/-- The `section_header_entry_size` of a 64-bit file. -/
def shentsize64 (f : List Byte) : Nat := fileField f 58 2

/-- The `section_header_count` of a 64-bit file. -/
def shnum64 (f : List Byte) : Nat := fileField f 60 2

/-- Offset of the last entry of the section header table of a 64-bit file. -/
def lastShdr64 (f : List Byte) : Nat := shoff64 f + shentsize64 f * (shnum64 f - 1)

/-- End of the section header table of a 64-bit file. -/
def shtEnd64 (f : List Byte) : Nat := shoff64 f + shentsize64 f * shnum64 f

/-- The sum `section_offset + section_size` of the 64-bit section header
stored at offset `L`. -/
def sectionEnd64 (f : List Byte) (L : Nat) : Nat :=
  fileField f (L + 24) 8 + fileField f (L + 32) 8

/-- The `section_header_offset` of a 32-bit file. -/
def shoff32 (f : List Byte) : Nat := fileField f 32 4

/-- The `section_header_entry_size` of a 32-bit file. -/
def shentsize32 (f : List Byte) : Nat := fileField f 46 2

/-- The `section_header_count` of a 32-bit file. -/
def shnum32 (f : List Byte) : Nat := fileField f 48 2

/-- Offset of the last entry of the section header table of a 32-bit file. -/
def lastShdr32 (f : List Byte) : Nat := shoff32 f + shentsize32 f * (shnum32 f - 1)

/-- End of the section header table of a 32-bit file. -/
def shtEnd32 (f : List Byte) : Nat := shoff32 f + shentsize32 f * shnum32 f

/-- The sum `section_offset + section_size` of the 32-bit section header
stored at offset `L`, as an unbounded integer. -/
def sectionEnd32 (f : List Byte) (L : Nat) : Nat :=
  fileField f (L + 16) 4 + fileField f (L + 20) 4

/-- The `section_header_entry_size` of a file of either class. -/
def shentsizeOf (f : List Byte) : Nat :=
  if classByte f = ELFCLASS32 then shentsize32 f else shentsize64 f

/-- The `section_header_count` of a file of either class. -/
def shnumOf (f : List Byte) : Nat :=
  if classByte f = ELFCLASS32 then shnum32 f else shnum64 f

/-- Offset of the last entry of the section header table, either class. -/
def lastShdrOf (f : List Byte) : Nat :=
  if classByte f = ELFCLASS32 then lastShdr32 f else lastShdr64 f

/-- Size of the section header structure of the file's class. -/
def shdrSizeOf (f : List Byte) : Nat :=
  if classByte f = ELFCLASS32 then sizeof_Elf32_Shdr else sizeof_Elf64_Shdr

/-! ## Auxiliary views of the code, used by the proofs -/

/-- The module-level header after lines 104-106 on a 64-bit file `f`, in
terms of the fields of `f` read in the file's byte order. -/
def decoded64 (ehdr : Elf64_Ehdr) (f : List Byte) : Elf64_Ehdr :=
  ⟨ehdr.e_ident, fileField f 40 8, fileField f 58 2, fileField f 60 2⟩

/-- The module-level header after lines 68-70 on a 32-bit file `f`. -/
def decoded32 (ehdr : Elf64_Ehdr) (f : List Byte) : Elf64_Ehdr :=
  ⟨ehdr.e_ident, fileField f 32 4, fileField f 46 2, fileField f 48 2⟩

/-- Lines 108-120 of `read_elf64`: what follows the decoding of the header. -/
def shdr_phase64 (host : Endian) (ehdr : Elf64_Ehdr) (fd : FILE) :
    Option (Int × Elf64_Ehdr × FILE) :=
  match last_shdr_offset ehdr with
  | none => none
  | some offset =>
    let fd := fseeko fd offset
    let (shdr64, fd) := fread fd sizeof_Elf64_Shdr
    if shdr64.length ≠ sizeof_Elf64_Shdr then some (-1, ehdr, fd) else
    match sht_end ehdr with
    | none => none
    | some sht_end =>
      let last_section_end := off_t_of_u64 (u64
        (file64_to_cpu host ehdr (field host shdr64 24 8)
          + file64_to_cpu host ehdr (field host shdr64 32 8)))
      some (if sht_end > last_section_end then sht_end else last_section_end, ehdr, fd)

/-- Lines 72-84 of `read_elf32`: what follows the decoding of the header. -/
def shdr_phase32 (host : Endian) (ehdr : Elf64_Ehdr) (fd : FILE) :
    Option (Int × Elf64_Ehdr × FILE) :=
  match last_shdr_offset ehdr with
  | none => none
  | some offset =>
    let fd := fseeko fd offset
    let (shdr32, fd) := fread fd sizeof_Elf32_Shdr
    if shdr32.length ≠ sizeof_Elf32_Shdr then some (-1, ehdr, fd) else
    match sht_end ehdr with
    | none => none
    | some sht_end =>
      let last_section_end := off_t_of_u64 (u64
        (file64_to_cpu host ehdr (field host shdr32 16 4)
          + file64_to_cpu host ehdr (field host shdr32 20 4)))
      some (if sht_end > last_section_end then sht_end else last_section_end, ehdr, fd)

/-- What `file64_to_cpu` makes of a 32-bit field: the value in the file's byte
order when that is the host's, and that value shifted into the upper half of
the 64-bit word otherwise. -/
def widened32 (host : Endian) (data : Nat) (bs : List Byte) : Nat :=
  if data = ELFDATANATIVE host then fileOrderVal data bs else 2 ^ 32 * fileOrderVal data bs

/-- The two summands of `last_section_end` on line 83, for the 32-bit section
header stored at `L`. -/
def codeSectionEnd32 (host : Endian) (f : List Byte) (L : Nat) : Nat :=
  widened32 host (dataByte f) ((f.drop (L + 16)).take 4)
    + widened32 host (dataByte f) ((f.drop (L + 20)).take 4)

/-! ## Concrete files -/

/-- A 64-bit ELF header: identification prefix with the given data-encoding
byte, then zero bytes except for the eight bytes of `e_shoff` and the two
bytes each of `e_shentsize` and `e_shnum`. -/
def mkEhdr64 (data : Byte) (shoff entsize shnum : List Byte) : List Byte :=
  [0x7f, 0x45, 0x4c, 0x46, 2, data, 1, 0] ++ List.replicate 32 0 ++ shoff
    ++ List.replicate 10 0 ++ entsize ++ shnum ++ [0, 0]

/-- A 64-bit section header, zero except for `sh_offset` and `sh_size`. -/
def mkShdr64 (offset size : List Byte) : List Byte :=
  List.replicate 24 0 ++ offset ++ size ++ List.replicate 24 0

/-- A 32-bit ELF header, zero except for the identification prefix and the
bytes of `e_shoff`, `e_shentsize` and `e_shnum`. -/
def mkEhdr32 (data : Byte) (shoff entsize shnum : List Byte) : List Byte :=
  [0x7f, 0x45, 0x4c, 0x46, 1, data, 1, 0] ++ List.replicate 24 0 ++ shoff
    ++ List.replicate 10 0 ++ entsize ++ shnum ++ [0, 0]

/-- A 32-bit section header, zero except for `sh_offset` and `sh_size`. -/
def mkShdr32 (offset size : List Byte) : List Byte :=
  List.replicate 16 0 ++ offset ++ size ++ List.replicate 16 0

/-- The largest file offset of an ext4 file system with 4 KiB blocks. -/
def ext4_maxbytes : Nat := 2 ^ 44 - 4096

/-- The largest file offset of a tmpfs file system, the largest `off_t`. -/
def tmpfs_maxbytes : Nat := 2 ^ 63 - 1

/-- A module-level header as the program starts with (zero-initialised). -/
def ehdr0 : Elf64_Ehdr := ⟨List.replicate 16 0, 0, 0, 0⟩

/-- The first scenario: little-endian, section header table of 30 entries of
64 bytes at `0x1000`, last section at `0x0FE0` of size `0x10`. -/
def scenarioA : List Byte :=
  mkEhdr64 1 [0x00, 0x10, 0, 0, 0, 0, 0, 0] [64, 0] [30, 0]
    ++ List.replicate (0x1740 - 64) 0
    ++ mkShdr64 [0xE0, 0x0F, 0, 0, 0, 0, 0, 0] [0x10, 0, 0, 0, 0, 0, 0, 0]

/-- The second scenario: the same header, last section at `0x2000` of size
`0x500`. -/
def scenarioB : List Byte :=
  mkEhdr64 1 [0x00, 0x10, 0, 0, 0, 0, 0, 0] [64, 0] [30, 0]
    ++ List.replicate (0x1740 - 64) 0
    ++ mkShdr64 [0x00, 0x20, 0, 0, 0, 0, 0, 0] [0x00, 0x05, 0, 0, 0, 0, 0, 0]

/-- A 64-bit little-endian file of 128 bytes that ends with its section
header table: one entry of 64 bytes at offset 64, describing an empty
section. -/
def compact64 : List Byte :=
  mkEhdr64 1 [64, 0, 0, 0, 0, 0, 0, 0] [64, 0] [1, 0]
    ++ mkShdr64 [0, 0, 0, 0, 0, 0, 0, 0] [0, 0, 0, 0, 0, 0, 0, 0]

/-- A 32-bit little-endian file of 92 bytes: one section header of 40 bytes
at offset 52, whose `sh_offset` and `sh_size` are both `0xFFFFFFFF`. -/
def wide32 : List Byte :=
  mkEhdr32 1 [52, 0, 0, 0] [40, 0] [1, 0]
    ++ mkShdr32 [0xFF, 0xFF, 0xFF, 0xFF] [0xFF, 0xFF, 0xFF, 0xFF]

/-- The first 50 bytes of a 32-bit little-endian ELF header that declares one
section header entry of 40 bytes at offset 0. -/
def short32 : List Byte :=
  (mkEhdr32 1 [0, 0, 0, 0] [40, 0] [1, 0]).take 50

/-- A 32-bit big-endian file of 92 bytes: one section header of 40 bytes at
offset 52, describing a section at `0x20` of size `0x10`. -/
def bigEndian32 : List Byte :=
  mkEhdr32 2 [0, 0, 0, 52] [0, 40] [0, 1]
    ++ mkShdr32 [0, 0, 0, 0x20] [0, 0, 0, 0x10]

/-- A 64-bit little-endian header of 64 bytes that declares `0xFFFF` section
headers of `0xFFFF` bytes at offset 64. -/
def hugeTable64 : List Byte :=
  mkEhdr64 1 [64, 0, 0, 0, 0, 0, 0, 0] [0xFF, 0xFF] [0xFF, 0xFF]

/-- A 64-bit little-endian file of 128 bytes that declares one section header
entry of 128 bytes at offset 64. -/
def longEntry64 : List Byte :=
  mkEhdr64 1 [64, 0, 0, 0, 0, 0, 0, 0] [128, 0] [1, 0]
    ++ mkShdr64 [0, 0, 0, 0, 0, 0, 0, 0] [0, 0, 0, 0, 0, 0, 0, 0]

/-- A 64-bit little-endian file of 128 bytes that declares two section header
entries of 64 bytes at offset 64, the second of which is missing. -/
def truncated64 : List Byte :=
  mkEhdr64 1 [64, 0, 0, 0, 0, 0, 0, 0] [64, 0] [2, 0]
    ++ mkShdr64 [0, 0, 0, 0, 0, 0, 0, 0] [0, 0, 0, 0, 0, 0, 0, 0]

/-- A 64-bit little-endian file of 128 bytes whose header declares no section
header at all: `e_shoff = 128`, `e_shentsize = 64`, `e_shnum = 0`. -/
def zeroCount64 : List Byte :=
  mkEhdr64 1 [128, 0, 0, 0, 0, 0, 0, 0] [64, 0] [0, 0]
    ++ mkShdr64 [0, 0, 0, 0, 0, 0, 0, 0] [0, 0, 0, 0, 0, 0, 0, 0]

/-- A 64-bit little-endian file of 128 bytes with `e_shoff = 2^63`, one
section header entry of 64 bytes, and `sh_offset = 2^63`, `sh_size = 0` in the
64 bytes that follow the ELF header. -/
def farTable64 : List Byte :=
  mkEhdr64 1 [0, 0, 0, 0, 0, 0, 0, 0x80] [64, 0] [1, 0]
    ++ mkShdr64 [0, 0, 0, 0, 0, 0, 0, 0x80] [0, 0, 0, 0, 0, 0, 0, 0]

/-- A file of 16 bytes whose data-encoding byte is 3. -/
def oddOrder : List Byte :=
  [0x7f, 0x45, 0x4c, 0x46, 2, 3, 1, 0] ++ List.replicate 8 0

/-- Byte `i` of a number, byte 0 being the least significant. -/
def byteAt (v i : Nat) : Nat := v / 256 ^ i % 256

/-- The `n` low-order bytes of a number, least significant first. -/
def toBytes : Nat → Nat → List Byte
  | 0, _ => []
  | n + 1, v => ⟨v % 256, Nat.mod_lt v (by decide)⟩ :: toBytes n (v / 256)

/-- A module-level header whose identification prefix names the big-endian
data encoding. -/
def ehdrMSB : Elf64_Ehdr :=
  ⟨[0x7f, 0x45, 0x4c, 0x46, 2, 2, 1, 0, 0, 0, 0, 0, 0, 0, 0, 0], 0, 0, 0⟩

/-- A module-level header whose identification prefix names the little-endian
data encoding. -/
def ehdrLSB : Elf64_Ehdr :=
  ⟨[0x7f, 0x45, 0x4c, 0x46, 2, 1, 1, 0, 0, 0, 0, 0, 0, 0, 0, 0], 0, 0, 0⟩

/-- A file of 16 bytes with a recognised data encoding and the class byte 3. -/
def oddClass : List Byte :=
  [0x7f, 0x45, 0x4c, 0x46, 3, 1, 1, 0] ++ List.replicate 8 0

/-- The first 60 bytes of a 64-bit little-endian ELF header. -/
def shortHeader64 : List Byte :=
  (mkEhdr64 1 [64, 0, 0, 0, 0, 0, 0, 0] [64, 0] [1, 0]).take 60

/-- The `section_header_offset` of a file of either class. -/
def shoffOf (f : List Byte) : Nat :=
  if classByte f = ELFCLASS32 then shoff32 f else shoff64 f

/-- Size of the ELF header structure of the file's class. -/
def ehdrSizeOf (f : List Byte) : Nat :=
  if classByte f = ELFCLASS32 then sizeof_Elf32_Ehdr else sizeof_Elf64_Ehdr

/-- A 64-bit little-endian file of 256 bytes: the ELF header, 64 zero bytes,
and at offset 128 the only section header, of a section at `0x10` of size
`0x20`, followed by 64 zero bytes. -/
def twinA : List Byte :=
  mkEhdr64 1 [128, 0, 0, 0, 0, 0, 0, 0] [64, 0] [1, 0] ++ List.replicate 64 0
    ++ mkShdr64 [0x10, 0, 0, 0, 0, 0, 0, 0] [0x20, 0, 0, 0, 0, 0, 0, 0]
    ++ List.replicate 64 0

/-- A file of 195 bytes with the ELF header and the section header of `twinA`
at the same offsets, other bytes between them and three more bytes at the
end. -/
def twinB : List Byte :=
  mkEhdr64 1 [128, 0, 0, 0, 0, 0, 0, 0] [64, 0] [1, 0] ++ List.replicate 64 0xAA
    ++ mkShdr64 [0x10, 0, 0, 0, 0, 0, 0, 0] [0x20, 0, 0, 0, 0, 0, 0, 0]
    ++ [1, 2, 3]

/-- A 64-bit little-endian file of 128 bytes that declares one section header
entry of 8 bytes at offset 64; the 64 bytes at that offset are zero. -/
def slimA : List Byte :=
  mkEhdr64 1 [64, 0, 0, 0, 0, 0, 0, 0] [8, 0] [1, 0]
    ++ mkShdr64 [0, 0, 0, 0, 0, 0, 0, 0] [0, 0, 0, 0, 0, 0, 0, 0]

/-- A file with the ELF header of `slimA` and the same 8 bytes in the declared
entry at offset 64, whose bytes 88 to 103 read as `sh_offset = 0x100` and
`sh_size = 0x20`. -/
def slimB : List Byte :=
  mkEhdr64 1 [64, 0, 0, 0, 0, 0, 0, 0] [8, 0] [1, 0]
    ++ mkShdr64 [0x00, 0x01, 0, 0, 0, 0, 0, 0] [0x20, 0, 0, 0, 0, 0, 0, 0]

/-- A 64-bit little-endian file of 128 bytes with `e_shoff = 2^62`, one section
header entry of 64 bytes, and 64 zero bytes after the ELF header. -/
def beyond62 : List Byte :=
  mkEhdr64 1 [0, 0, 0, 0, 0, 0, 0, 0x40] [64, 0] [1, 0]
    ++ mkShdr64 [0, 0, 0, 0, 0, 0, 0, 0] [0, 0, 0, 0, 0, 0, 0, 0]

/-- A 64-bit little-endian file of 128 bytes with `e_shoff = 2^64 - 64`, one
section header entry of 64 bytes, and in the 64 bytes that follow the ELF
header a section header of a section at `0x100` of size `0x20`. -/
def wrappedTable64 : List Byte :=
  mkEhdr64 1 [0xC0, 0xFF, 0xFF, 0xFF, 0xFF, 0xFF, 0xFF, 0xFF] [64, 0] [1, 0]
    ++ mkShdr64 [0x00, 0x01, 0, 0, 0, 0, 0, 0] [0x20, 0, 0, 0, 0, 0, 0, 0]

/-! ## Lemmas -/

theorem bswap_16_arith (v : Nat) (h : v < 2 ^ 16) :
    bswap_16 v = v % 256 * 256 + v / 256 := by
  unfold bswap_16
  have h1 : v &&& 0xff = v % 2 ^ 8 := Nat.and_pow_two_sub_one_eq_mod v 8
  have h2 : v / 2 ^ 8 < 2 ^ 8 := by omega
  rw [h1, Nat.shiftLeft_eq, Nat.shiftRight_eq_div_pow, Nat.mul_comm,
    ← Nat.mul_add_lt_is_or h2]
  omega

theorem bswap_16_lt (v : Nat) (h : v < 2 ^ 16) : bswap_16 v < 2 ^ 16 := by
  rw [bswap_16_arith v h]; omega

theorem bswap_32_arith (v : Nat) (h : v < 2 ^ 32) :
    bswap_32 v = bswap_16 (v % 2 ^ 16) * 2 ^ 16 + bswap_16 (v / 2 ^ 16) := by
  unfold bswap_32 u32 u16
  have h1 : v &&& 0xffff = v % 2 ^ 16 := Nat.and_pow_two_sub_one_eq_mod v 16
  have ha : bswap_16 (v % 2 ^ 16) < 2 ^ 16 := bswap_16_lt _ (by omega)
  have hb : bswap_16 (v / 2 ^ 16) < 2 ^ 16 := bswap_16_lt _ (by omega)
  rw [h1, Nat.shiftLeft_eq, Nat.shiftRight_eq_div_pow]
  have e1 : v % 2 ^ 16 % 2 ^ 16 = v % 2 ^ 16 := by omega
  have e2 : v / 2 ^ 16 % 2 ^ 16 = v / 2 ^ 16 := by omega
  rw [e1, e2]
  have e3 : bswap_16 (v % 2 ^ 16) % 2 ^ 32 * 2 ^ 16 % 2 ^ 32 = 2 ^ 16 * bswap_16 (v % 2 ^ 16) := by
    omega
  have e4 : bswap_16 (v / 2 ^ 16) % 2 ^ 32 = bswap_16 (v / 2 ^ 16) := by omega
  rw [e3, e4, ← Nat.mul_add_lt_is_or hb]
  omega

theorem bswap_32_lt (v : Nat) (h : v < 2 ^ 32) : bswap_32 v < 2 ^ 32 := by
  have ha : bswap_16 (v % 2 ^ 16) < 2 ^ 16 := bswap_16_lt _ (by omega)
  have hb : bswap_16 (v / 2 ^ 16) < 2 ^ 16 := bswap_16_lt _ (by omega)
  rw [bswap_32_arith v h]; omega

theorem bswap_64_arith (v : Nat) (h : v < 2 ^ 64) :
    bswap_64 v = bswap_32 (v % 2 ^ 32) * 2 ^ 32 + bswap_32 (v / 2 ^ 32) := by
  unfold bswap_64 u64 u32
  have h1 : v &&& 0xffffffff = v % 2 ^ 32 := Nat.and_pow_two_sub_one_eq_mod v 32
  have ha : bswap_32 (v % 2 ^ 32) < 2 ^ 32 := bswap_32_lt _ (by omega)
  have hb : bswap_32 (v / 2 ^ 32) < 2 ^ 32 := bswap_32_lt _ (by omega)
  rw [h1, Nat.shiftLeft_eq, Nat.shiftRight_eq_div_pow]
  have e1 : v % 2 ^ 32 % 2 ^ 32 = v % 2 ^ 32 := by omega
  have e2 : v / 2 ^ 32 % 2 ^ 32 = v / 2 ^ 32 := by omega
  rw [e1, e2]
  have e3 : bswap_32 (v % 2 ^ 32) % 2 ^ 64 * 2 ^ 32 % 2 ^ 64 = 2 ^ 32 * bswap_32 (v % 2 ^ 32) := by
    omega
  have e4 : bswap_32 (v / 2 ^ 32) % 2 ^ 64 = bswap_32 (v / 2 ^ 32) := by omega
  rw [e3, e4, ← Nat.mul_add_lt_is_or hb]
  omega

theorem bswap_64_lt (v : Nat) (h : v < 2 ^ 64) : bswap_64 v < 2 ^ 64 := by
  have ha : bswap_32 (v % 2 ^ 32) < 2 ^ 32 := bswap_32_lt _ (by omega)
  have hb : bswap_32 (v / 2 ^ 32) < 2 ^ 32 := bswap_32_lt _ (by omega)
  rw [bswap_64_arith v h]; omega

theorem bswap_16_bytes (a b : Byte) : bswap_16 (leVal [a, b]) = leVal [b, a] := by
  have ha := a.isLt
  have hb := b.isLt
  simp only [leVal]
  rw [bswap_16_arith _ (by omega)]
  omega

theorem bswap_32_bytes (a b c d : Byte) :
    bswap_32 (leVal [a, b, c, d]) = leVal [d, c, b, a] := by
  have ha := a.isLt
  have hb := b.isLt
  have hc := c.isLt
  have hd := d.isLt
  have hv : leVal [a, b, c, d] = leVal [a, b] + 2 ^ 16 * leVal [c, d] := by
    simp only [leVal]; omega
  have h1 : leVal [a, b] < 2 ^ 16 := by simp only [leVal]; omega
  have h2 : leVal [c, d] < 2 ^ 16 := by simp only [leVal]; omega
  rw [bswap_32_arith _ (by omega), hv]
  have e1 : (leVal [a, b] + 2 ^ 16 * leVal [c, d]) % 2 ^ 16 = leVal [a, b] := by omega
  have e2 : (leVal [a, b] + 2 ^ 16 * leVal [c, d]) / 2 ^ 16 = leVal [c, d] := by omega
  rw [e1, e2, bswap_16_bytes, bswap_16_bytes]
  simp only [leVal]; omega

theorem bswap_64_bytes (a b c d e f g h : Byte) :
    bswap_64 (leVal [a, b, c, d, e, f, g, h]) = leVal [h, g, f, e, d, c, b, a] := by
  have ha := a.isLt
  have hb := b.isLt
  have hc := c.isLt
  have hd := d.isLt
  have he := e.isLt
  have hf := f.isLt
  have hg := g.isLt
  have hh := h.isLt
  have hv : leVal [a, b, c, d, e, f, g, h]
      = leVal [a, b, c, d] + 2 ^ 32 * leVal [e, f, g, h] := by
    simp only [leVal]; omega
  have h1 : leVal [a, b, c, d] < 2 ^ 32 := by simp only [leVal]; omega
  have h2 : leVal [e, f, g, h] < 2 ^ 32 := by simp only [leVal]; omega
  rw [bswap_64_arith _ (by omega), hv]
  have e1 : (leVal [a, b, c, d] + 2 ^ 32 * leVal [e, f, g, h]) % 2 ^ 32
      = leVal [a, b, c, d] := by omega
  have e2 : (leVal [a, b, c, d] + 2 ^ 32 * leVal [e, f, g, h]) / 2 ^ 32
      = leVal [e, f, g, h] := by omega
  rw [e1, e2, bswap_32_bytes, bswap_32_bytes]
  simp only [leVal]; omega

theorem leVal_lt (bs : List Byte) : leVal bs < 256 ^ bs.length := by
  induction bs with
  | nil => simp [leVal]
  | cons b bs ih =>
    have hb := b.isLt
    simp only [leVal, List.length_cons, pow_succ]
    omega

theorem bswap_16_leVal (bs : List Byte) (h : bs.length = 2) :
    bswap_16 (leVal bs) = leVal bs.reverse := by
  match bs, h with
  | [a, b], _ => simpa using bswap_16_bytes a b

theorem bswap_32_leVal (bs : List Byte) (h : bs.length = 4) :
    bswap_32 (leVal bs) = leVal bs.reverse := by
  match bs, h with
  | [a, b, c, d], _ => simpa using bswap_32_bytes a b c d

theorem bswap_64_leVal (bs : List Byte) (h : bs.length = 8) :
    bswap_64 (leVal bs) = leVal bs.reverse := by
  match bs, h with
  | [a, b, c, d, e, f, g, i], _ => simpa using bswap_64_bytes a b c d e f g i

theorem u16_leVal (bs : List Byte) (h : bs.length = 2) : u16 (leVal bs) = leVal bs := by
  have h1 := leVal_lt bs
  rw [h] at h1
  exact Nat.mod_eq_of_lt (by omega)

theorem u32_leVal (bs : List Byte) (h : bs.length = 4) : u32 (leVal bs) = leVal bs := by
  have h1 := leVal_lt bs
  rw [h] at h1
  exact Nat.mod_eq_of_lt (by omega)

theorem u64_leVal (bs : List Byte) (h : bs.length = 8) : u64 (leVal bs) = leVal bs := by
  have h1 := leVal_lt bs
  rw [h] at h1
  exact Nat.mod_eq_of_lt (by omega)

theorem swap16_leVal (bs : List Byte) (h : bs.length = 2) :
    u16 (bswap_16 (u16 (leVal bs))) = leVal bs.reverse := by
  rw [u16_leVal bs h, bswap_16_leVal bs h, u16_leVal _ (by simpa using h)]

theorem swap32_leVal (bs : List Byte) (h : bs.length = 4) :
    u32 (bswap_32 (u32 (leVal bs))) = leVal bs.reverse := by
  rw [u32_leVal bs h, bswap_32_leVal bs h, u32_leVal _ (by simpa using h)]

theorem swap64_leVal (bs : List Byte) (h : bs.length = 8) :
    u64 (bswap_64 (u64 (leVal bs))) = leVal bs.reverse := by
  rw [u64_leVal bs h, bswap_64_leVal bs h, u64_leVal _ (by simpa using h)]

theorem file16_to_cpu_hostVal (host : Endian) (ehdr : Elf64_Ehdr) (bs : List Byte)
    (hd : (ehdr.e_ident.getD EI_DATA 0).val = ELFDATA2LSB
      ∨ (ehdr.e_ident.getD EI_DATA 0).val = ELFDATA2MSB)
    (h : bs.length = 2) :
    file16_to_cpu host ehdr (hostVal host bs)
      = fileOrderVal (ehdr.e_ident.getD EI_DATA 0).val bs := by
  have hr : bs.reverse.length = 2 := by simpa using h
  unfold file16_to_cpu fileOrderVal
  cases host <;> rcases hd with hd | hd <;>
    simp only [hd, ELFDATANATIVE, hostVal, ELFDATA2LSB, ELFDATA2MSB]
  · simpa using u16_leVal bs h
  · simpa using swap16_leVal bs h
  · simpa using swap16_leVal _ hr
  · simpa using u16_leVal _ hr

theorem file32_to_cpu_hostVal (host : Endian) (ehdr : Elf64_Ehdr) (bs : List Byte)
    (hd : (ehdr.e_ident.getD EI_DATA 0).val = ELFDATA2LSB
      ∨ (ehdr.e_ident.getD EI_DATA 0).val = ELFDATA2MSB)
    (h : bs.length = 4) :
    file32_to_cpu host ehdr (hostVal host bs)
      = fileOrderVal (ehdr.e_ident.getD EI_DATA 0).val bs := by
  have hr : bs.reverse.length = 4 := by simpa using h
  unfold file32_to_cpu fileOrderVal
  cases host <;> rcases hd with hd | hd <;>
    simp only [hd, ELFDATANATIVE, hostVal, ELFDATA2LSB, ELFDATA2MSB]
  · simpa using u32_leVal bs h
  · simpa using swap32_leVal bs h
  · simpa using swap32_leVal _ hr
  · simpa using u32_leVal _ hr

theorem file64_to_cpu_hostVal (host : Endian) (ehdr : Elf64_Ehdr) (bs : List Byte)
    (hd : (ehdr.e_ident.getD EI_DATA 0).val = ELFDATA2LSB
      ∨ (ehdr.e_ident.getD EI_DATA 0).val = ELFDATA2MSB)
    (h : bs.length = 8) :
    file64_to_cpu host ehdr (hostVal host bs)
      = fileOrderVal (ehdr.e_ident.getD EI_DATA 0).val bs := by
  have hr : bs.reverse.length = 8 := by simpa using h
  unfold file64_to_cpu fileOrderVal
  cases host <;> rcases hd with hd | hd <;>
    simp only [hd, ELFDATANATIVE, hostVal, ELFDATA2LSB, ELFDATA2MSB]
  · simpa using u64_leVal bs h
  · simpa using swap64_leVal bs h
  · simpa using swap64_leVal _ hr
  · simpa using u64_leVal _ hr

theorem slice_length (f : List Byte) (pos n : Nat) (h : pos + n ≤ f.length) :
    ((f.drop pos).take n).length = n := by
  simp only [List.length_take, List.length_drop]; omega

theorem slice_length_lt (f : List Byte) (pos n : Nat) (h : f.length < pos + n) (hn : 0 < n) :
    ((f.drop pos).take n).length ≠ n := by
  simp only [List.length_take, List.length_drop]; omega

theorem slice_slice (f : List Byte) (pos n off w : Nat) (h : off + w ≤ n) :
    (((f.drop pos).take n).drop off).take w = (f.drop (pos + off)).take w := by
  rw [List.drop_take, List.take_take, List.drop_drop, Nat.min_eq_left (by omega)]

theorem ident_getD (f rest : List Byte) (i : Nat) (hi : i < 16) (h : 16 ≤ f.length) :
    (((f.drop 0).take 16) ++ rest).getD i 0 = f.getD i 0 := by
  have h1 : i < ((f.drop 0).take 16).length := by
    rw [slice_length f 0 16 (by omega)]; exact hi
  simp only [List.getD_eq_getElem?_getD]
  rw [List.getElem?_append_left h1]
  simp [List.getElem?_take, hi]

theorem get_elf_size_dispatch (host : Endian) (lim : Nat) (ehdr : Elf64_Ehdr) (f : List Byte)
    (h : 16 ≤ f.length) :
    get_elf_size host lim ehdr (some f) =
      if dataByte f ≠ ELFDATA2LSB ∧ dataByte f ≠ ELFDATA2MSB then
        some ⟨-1, { ehdr with e_ident := f.take 16 ++ ehdr.e_ident.drop 16 }, [.read 0 16]⟩
      else if classByte f = ELFCLASS32 then
        (read_elf32 host { ehdr with e_ident := f.take 16 ++ ehdr.e_ident.drop 16 }
          { maxbytes := lim, data := f, pos := 16, trace := [.read 0 16] }).map
          fun r => { ret := r.1, ehdr := r.2.1, trace := r.2.2.trace }
      else if classByte f = ELFCLASS64 then
        (read_elf64 host { ehdr with e_ident := f.take 16 ++ ehdr.e_ident.drop 16 }
          { maxbytes := lim, data := f, pos := 16, trace := [.read 0 16] }).map
          fun r => { ret := r.1, ehdr := r.2.1, trace := r.2.2.trace }
      else some ⟨-1, { ehdr with e_ident := f.take 16 ++ ehdr.e_ident.drop 16 }, [.read 0 16]⟩ := by
  have hl : ((f.drop 0).take 16).length = 16 := slice_length f 0 16 (by omega)
  have h4 := ident_getD f (ehdr.e_ident.drop 16) 4 (by omega) h
  have h5 := ident_getD f (ehdr.e_ident.drop 16) 5 (by omega) h
  simp only [get_elf_size, fopen, fread, Option.map_some', hl, EI_NIDENT, EI_DATA, EI_CLASS,
    h4, h5, dataByte, classByte]
  simp

theorem fseeko_zero (fd : FILE) :
    fseeko fd 0 = ⟨fd.maxbytes, fd.data, 0, fd.trace ++ [.seek 0]⟩ := rfl

theorem fseeko_nonneg (fd : FILE) (offset : Int) (h : 0 ≤ offset)
    (hm : offset ≤ (seek_limit fd : Int)) :
    fseeko fd offset = ⟨fd.maxbytes, fd.data, offset.toNat, fd.trace ++ [.seek offset]⟩ := by
  unfold fseeko
  rw [if_neg (by omega)]

theorem fseeko_neg (fd : FILE) (offset : Int) (h : offset < 0) :
    fseeko fd offset = ⟨fd.maxbytes, fd.data, fd.pos, fd.trace ++ [.seek offset]⟩ := by
  unfold fseeko
  rw [if_pos (Or.inl h)]

theorem fseeko_beyond (fd : FILE) (offset : Int) (h : (seek_limit fd : Int) < offset) :
    fseeko fd offset = ⟨fd.maxbytes, fd.data, fd.pos, fd.trace ++ [.seek offset]⟩ := by
  unfold fseeko
  rw [if_pos (Or.inr h)]

theorem fseeko_maxbytes (fd : FILE) (offset : Int) :
    (fseeko fd offset).maxbytes = fd.maxbytes := by
  unfold fseeko
  split <;> rfl

theorem seek_limit_ge_length (fd : FILE) : fd.data.length ≤ seek_limit fd :=
  Nat.le_max_right _ _

theorem fseeko_data (fd : FILE) (offset : Int) : (fseeko fd offset).data = fd.data := by
  unfold fseeko
  split <;> rfl

theorem fseeko_trace (fd : FILE) (offset : Int) :
    (fseeko fd offset).trace = fd.trace ++ [.seek offset] := by
  unfold fseeko
  split <;> rfl

theorem read_elf64_short (host : Endian) (ehdr : Elf64_Ehdr) (fd : FILE)
    (h : fd.data.length < 64) :
    read_elf64 host ehdr fd
      = some (-1, ehdr, ⟨fd.maxbytes, fd.data, fd.data.length, fd.trace ++ [.seek 0, .read 0 64]⟩) := by
  have hl : ((fd.data.drop 0).take 64).length = fd.data.length := by
    simp only [List.length_take, List.length_drop]; omega
  have hne : fd.data.length ≠ 64 := by omega
  unfold read_elf64
  simp only [fseeko_zero, fread, hl, sizeof_Elf64_Ehdr]
  rw [if_pos hne]
  simp

theorem read_elf64_header (host : Endian) (ehdr : Elf64_Ehdr) (fd : FILE)
    (hd : (ehdr.e_ident.getD EI_DATA 0).val = ELFDATA2LSB
      ∨ (ehdr.e_ident.getD EI_DATA 0).val = ELFDATA2MSB)
    (hf : (ehdr.e_ident.getD EI_DATA 0).val = dataByte fd.data)
    (h : 64 ≤ fd.data.length) :
    read_elf64 host ehdr fd = shdr_phase64 host (decoded64 ehdr fd.data)
      ⟨fd.maxbytes, fd.data, 64, fd.trace ++ [.seek 0, .read 0 64]⟩ := by
  have hl : ((fd.data.drop 0).take 64).length = 64 := slice_length _ 0 64 (by omega)
  have e1 : file64_to_cpu host ehdr (field host ((fd.data.drop 0).take 64) 40 8)
      = fileField fd.data 40 8 := by
    unfold field fileField
    rw [slice_slice _ 0 64 40 8 (by omega), ← hf]
    exact file64_to_cpu_hostVal host ehdr _ hd (slice_length _ _ _ (by omega))
  have e2 : ∀ x, file16_to_cpu host { ehdr with e_shoff := x }
      (field host ((fd.data.drop 0).take 64) 58 2) = fileField fd.data 58 2 := by
    intro x
    unfold field fileField
    rw [slice_slice _ 0 64 58 2 (by omega), ← hf]
    exact file16_to_cpu_hostVal host _ _ hd (slice_length _ _ _ (by omega))
  have e3 : ∀ x y, file16_to_cpu host { ehdr with e_shoff := x, e_shentsize := y }
      (field host ((fd.data.drop 0).take 64) 60 2) = fileField fd.data 60 2 := by
    intro x y
    unfold field fileField
    rw [slice_slice _ 0 64 60 2 (by omega), ← hf]
    exact file16_to_cpu_hostVal host _ _ hd (slice_length _ _ _ (by omega))
  unfold read_elf64 shdr_phase64 decoded64
  simp only [fseeko_zero, fread, hl, sizeof_Elf64_Ehdr]
  rw [if_neg (by simp)]
  simp only [e1, e2, e3]
  simp

theorem int_mul_natCast (a b : Nat) (h : a * b < 2 ^ 31) :
    int_mul (a : Int) (b : Int) = some ((a * b : Nat) : Int) := by
  unfold int_mul
  have e : (a : Int) * (b : Int) = ((a * b : Nat) : Int) := by push_cast; rfl
  rw [e, if_pos (Or.inl (by rw [Int.natAbs_ofNat]; exact h))]

theorem int_mul_overflow (a b : Nat) (h : 2 ^ 31 ≤ a * b) :
    int_mul (a : Int) (b : Int) = none := by
  unfold int_mul
  have e : (a : Int) * (b : Int) = ((a * b : Nat) : Int) := by push_cast; rfl
  rw [e, if_neg]
  rw [Int.natAbs_ofNat]
  omega

theorem u64_of_int_natCast (k : Nat) : u64_of_int (k : Int) = k % 2 ^ 64 := by
  unfold u64_of_int
  omega

theorem off_t_of_u64_small (x : Nat) (h : x < 2 ^ 63) : off_t_of_u64 x = (x : Int) := by
  unfold off_t_of_u64
  have e : x % 2 ^ 64 = x := Nat.mod_eq_of_lt (by omega)
  rw [e, if_pos h]

theorem off_t_of_u64_nonneg_iff (x : Nat) : 0 ≤ off_t_of_u64 x ↔ x % 2 ^ 64 < 2 ^ 63 := by
  unfold off_t_of_u64
  split <;> omega

theorem sht_end_eq (ehdr : Elf64_Ehdr) (hm : ehdr.e_shentsize * ehdr.e_shnum < 2 ^ 31)
    (hb : ehdr.e_shoff + ehdr.e_shentsize * ehdr.e_shnum < 2 ^ 63) :
    sht_end ehdr = some ((ehdr.e_shoff + ehdr.e_shentsize * ehdr.e_shnum : Nat) : Int) := by
  unfold sht_end
  rw [int_mul_natCast _ _ hm, Option.map_some', u64_of_int_natCast]
  have e1 : ehdr.e_shentsize * ehdr.e_shnum % 2 ^ 64 = ehdr.e_shentsize * ehdr.e_shnum :=
    Nat.mod_eq_of_lt (by omega)
  have e2 : u64 (ehdr.e_shoff + ehdr.e_shentsize * ehdr.e_shnum)
      = ehdr.e_shoff + ehdr.e_shentsize * ehdr.e_shnum := Nat.mod_eq_of_lt (by omega)
  rw [e1, e2, off_t_of_u64_small _ hb]

theorem sht_end_overflow (ehdr : Elf64_Ehdr) (hm : 2 ^ 31 ≤ ehdr.e_shentsize * ehdr.e_shnum) :
    sht_end ehdr = none := by
  unfold sht_end
  rw [int_mul_overflow _ _ hm, Option.map_none']

theorem last_shdr_offset_eq (ehdr : Elf64_Ehdr) (hn : 1 ≤ ehdr.e_shnum)
    (hm : ehdr.e_shentsize * (ehdr.e_shnum - 1) < 2 ^ 31)
    (hb : ehdr.e_shoff + ehdr.e_shentsize * (ehdr.e_shnum - 1) < 2 ^ 63) :
    last_shdr_offset ehdr
      = some ((ehdr.e_shoff + ehdr.e_shentsize * (ehdr.e_shnum - 1) : Nat) : Int) := by
  unfold last_shdr_offset
  have e0 : (ehdr.e_shnum : Int) - 1 = ((ehdr.e_shnum - 1 : Nat) : Int) := by omega
  rw [e0, int_mul_natCast _ _ hm, Option.map_some', u64_of_int_natCast]
  have e1 : ehdr.e_shentsize * (ehdr.e_shnum - 1) % 2 ^ 64
      = ehdr.e_shentsize * (ehdr.e_shnum - 1) := Nat.mod_eq_of_lt (by omega)
  have e2 : u64 (ehdr.e_shoff + ehdr.e_shentsize * (ehdr.e_shnum - 1))
      = ehdr.e_shoff + ehdr.e_shentsize * (ehdr.e_shnum - 1) := Nat.mod_eq_of_lt (by omega)
  rw [e1, e2, off_t_of_u64_small _ hb]

theorem shdr_phase64_ok (host : Endian) (ehdr : Elf64_Ehdr) (fd : FILE) (offset se : Int)
    (hd : (ehdr.e_ident.getD EI_DATA 0).val = ELFDATA2LSB
      ∨ (ehdr.e_ident.getD EI_DATA 0).val = ELFDATA2MSB)
    (hf : (ehdr.e_ident.getD EI_DATA 0).val = dataByte fd.data)
    (hoff : last_shdr_offset ehdr = some offset) (hse : sht_end ehdr = some se)
    (hpos : (fseeko fd offset).pos + 64 ≤ fd.data.length) :
    shdr_phase64 host ehdr fd =
      some
        (if se > off_t_of_u64 (u64 (fileField fd.data ((fseeko fd offset).pos + 24) 8
            + fileField fd.data ((fseeko fd offset).pos + 32) 8)) then se
          else off_t_of_u64 (u64 (fileField fd.data ((fseeko fd offset).pos + 24) 8
            + fileField fd.data ((fseeko fd offset).pos + 32) 8)),
          ehdr,
          ⟨fd.maxbytes, fd.data, (fseeko fd offset).pos + 64,
            fd.trace ++ [.seek offset, .read (fseeko fd offset).pos 64]⟩) := by
  have hl : ((fd.data.drop (fseeko fd offset).pos).take 64).length = 64 :=
    slice_length _ _ 64 hpos
  have e1 : file64_to_cpu host ehdr
      (field host ((fd.data.drop (fseeko fd offset).pos).take 64) 24 8)
      = fileField fd.data ((fseeko fd offset).pos + 24) 8 := by
    unfold field fileField
    rw [slice_slice _ _ 64 24 8 (by omega), ← hf]
    exact file64_to_cpu_hostVal host ehdr _ hd (slice_length _ _ _ (by omega))
  have e2 : file64_to_cpu host ehdr
      (field host ((fd.data.drop (fseeko fd offset).pos).take 64) 32 8)
      = fileField fd.data ((fseeko fd offset).pos + 32) 8 := by
    unfold field fileField
    rw [slice_slice _ _ 64 32 8 (by omega), ← hf]
    exact file64_to_cpu_hostVal host ehdr _ hd (slice_length _ _ _ (by omega))
  unfold shdr_phase64
  rw [hoff, hse]
  simp only [fread, fseeko_data, fseeko_trace, fseeko_maxbytes, hl, sizeof_Elf64_Shdr, e1, e2]
  simp

theorem shdr_phase64_short (host : Endian) (ehdr : Elf64_Ehdr) (fd : FILE) (offset : Int)
    (hoff : last_shdr_offset ehdr = some offset)
    (hpos : fd.data.length < (fseeko fd offset).pos + 64) :
    shdr_phase64 host ehdr fd = some (-1, ehdr, (fread (fseeko fd offset) 64).2) := by
  have hl : (((fseeko fd offset).data.drop (fseeko fd offset).pos).take 64).length ≠ 64 := by
    rw [fseeko_data]; exact slice_length_lt _ _ 64 hpos (by omega)
  unfold shdr_phase64
  rw [hoff]
  simp only [fread, sizeof_Elf64_Shdr]
  rw [if_pos hl]

theorem fseeko_pos (fd : FILE) (offset : Int) :
    (fseeko fd offset).pos
      = if offset < 0 ∨ (seek_limit fd : Int) < offset then fd.pos else offset.toNat := by
  unfold fseeko
  split <;> rfl

theorem fseeko_pos_ok (fd : FILE) (L : Nat) (h : L ≤ max fd.maxbytes fd.data.length) :
    (fseeko fd (L : Int)).pos = L := by
  have e : seek_limit fd = max fd.maxbytes fd.data.length := rfl
  rw [fseeko_pos, if_neg (by omega)]
  rfl

theorem fseeko_pos_inside (fd : FILE) (L : Nat) (h : L ≤ fd.data.length) :
    (fseeko fd (L : Int)).pos = L := by
  have := seek_limit_ge_length fd
  rw [fseeko_pos, if_neg (by omega)]
  rfl

theorem ident_data (ehdr : Elf64_Ehdr) (f : List Byte) (h : 16 ≤ f.length) :
    ((f.take 16 ++ ehdr.e_ident.drop 16).getD EI_DATA 0).val = dataByte f := by
  have := ident_getD f (ehdr.e_ident.drop 16) 5 (by omega) h
  rw [List.drop_zero] at this
  unfold dataByte
  rw [this]

theorem get_elf_size_64 (host : Endian) (lim : Nat) (ehdr : Elf64_Ehdr) (f : List Byte)
    (hlen : 64 ≤ f.length) (hclass : classByte f = ELFCLASS64)
    (hdata : dataByte f = ELFDATA2LSB ∨ dataByte f = ELFDATA2MSB) :
    get_elf_size host lim ehdr (some f) =
      (shdr_phase64 host
        (decoded64 { ehdr with e_ident := f.take 16 ++ ehdr.e_ident.drop 16 } f)
        ⟨lim, f, 64, [.read 0 16, .seek 0, .read 0 64]⟩).map
        fun r => { ret := r.1, ehdr := r.2.1, trace := r.2.2.trace } := by
  have hid := ident_data ehdr f (by omega)
  rw [get_elf_size_dispatch host lim ehdr f (by omega)]
  have h1 : ¬ (dataByte f ≠ ELFDATA2LSB ∧ dataByte f ≠ ELFDATA2MSB) := by
    rcases hdata with h | h <;> simp [h]
  have h2 : ¬ classByte f = ELFCLASS32 := by rw [hclass]; decide
  rw [if_neg h1, if_neg h2, if_pos hclass]
  rw [read_elf64_header host _ ⟨lim, f, 16, [.read 0 16]⟩ (by rw [hid]; exact hdata) hid hlen]
  rfl

theorem returned_elf64_of_bounds (host : Endian) (lim : Nat) (ehdr : Elf64_Ehdr) (f : List Byte)
    (hclass : classByte f = ELFCLASS64)
    (hdata : dataByte f = ELFDATA2LSB ∨ dataByte f = ELFDATA2MSB)
    (hnum : 1 ≤ shnum64 f)
    (hin : lastShdr64 f + 64 ≤ f.length)
    (hmul : shentsize64 f * shnum64 f < 2 ^ 31)
    (hsht : shtEnd64 f < 2 ^ 63)
    (hsec : sectionEnd64 f (lastShdr64 f) < 2 ^ 63) :
    returned host lim ehdr f = some ((max (shtEnd64 f) (sectionEnd64 f (lastShdr64 f)) : Nat) : Int) := by
  have hid := ident_data ehdr f (by omega)
  have hsplit : shentsize64 f * shnum64 f
      = shentsize64 f * (shnum64 f - 1) + shentsize64 f := by
    obtain ⟨k, hk⟩ : ∃ k, shnum64 f = k + 1 := ⟨shnum64 f - 1, by omega⟩
    rw [hk, Nat.add_sub_cancel, Nat.mul_succ]
  unfold shtEnd64 at hsht
  have hL : lastShdr64 f < 2 ^ 63 := by unfold lastShdr64; omega
  have hoff : last_shdr_offset
      (decoded64 { ehdr with e_ident := f.take 16 ++ ehdr.e_ident.drop 16 } f)
      = some ((lastShdr64 f : Nat) : Int) :=
    last_shdr_offset_eq _ hnum (by show shentsize64 f * (shnum64 f - 1) < 2 ^ 31; omega) hL
  have hse : sht_end
      (decoded64 { ehdr with e_ident := f.take 16 ++ ehdr.e_ident.drop 16 } f)
      = some ((shtEnd64 f : Nat) : Int) := sht_end_eq _ hmul hsht
  have hp : (fseeko ⟨lim, f, 64, [.read 0 16, .seek 0, .read 0 64]⟩ (lastShdr64 f : Int)).pos
      = lastShdr64 f := fseeko_pos_inside _ _ (by show lastShdr64 f ≤ f.length; omega)
  unfold returned
  rw [get_elf_size_64 host lim ehdr f (by omega) hclass hdata,
    shdr_phase64_ok host _ _ _ _ (by rw [decoded64, hid]; exact hdata) (by rw [decoded64, hid])
      hoff hse (by rw [hp]; exact hin)]
  simp only [Option.map_some', hp]
  have e : u64 (fileField f (lastShdr64 f + 24) 8 + fileField f (lastShdr64 f + 32) 8)
      = sectionEnd64 f (lastShdr64 f) := Nat.mod_eq_of_lt (by unfold sectionEnd64 at hsec; omega)
  rw [e, off_t_of_u64_small _ hsec]
  congr 1
  split <;> omega

theorem bswap_32_zero : bswap_32 0 = 0 := by decide

theorem bswap_64_of_u32 (v : Nat) (h : v < 2 ^ 32) : bswap_64 v = 2 ^ 32 * bswap_32 v := by
  rw [bswap_64_arith v (by omega), Nat.mod_eq_of_lt h, Nat.div_eq_of_lt h, bswap_32_zero]
  omega

theorem swap64_leVal4 (bs : List Byte) (h : bs.length = 4) :
    u64 (bswap_64 (u64 (leVal bs))) = 2 ^ 32 * leVal bs.reverse := by
  have h1 := leVal_lt bs
  have h2 := leVal_lt bs.reverse
  rw [List.length_reverse] at h2
  rw [h] at h1 h2
  have e1 : u64 (leVal bs) = leVal bs := Nat.mod_eq_of_lt (by omega)
  rw [e1, bswap_64_of_u32 _ (by omega), bswap_32_leVal bs h]
  exact Nat.mod_eq_of_lt (by omega)

theorem u64_leVal4 (bs : List Byte) (h : bs.length = 4) : u64 (leVal bs) = leVal bs := by
  have h1 := leVal_lt bs
  rw [h] at h1
  exact Nat.mod_eq_of_lt (by omega)

theorem file64_to_cpu_hostVal4 (host : Endian) (ehdr : Elf64_Ehdr) (bs : List Byte)
    (hd : (ehdr.e_ident.getD EI_DATA 0).val = ELFDATA2LSB
      ∨ (ehdr.e_ident.getD EI_DATA 0).val = ELFDATA2MSB)
    (h : bs.length = 4) :
    file64_to_cpu host ehdr (hostVal host bs)
      = widened32 host (ehdr.e_ident.getD EI_DATA 0).val bs := by
  have hr : bs.reverse.length = 4 := by simpa using h
  unfold file64_to_cpu widened32 fileOrderVal
  cases host <;> rcases hd with hd | hd <;>
    simp only [hd, ELFDATANATIVE, hostVal, ELFDATA2LSB, ELFDATA2MSB]
  · simpa using u64_leVal4 bs h
  · simpa using swap64_leVal4 bs h
  · simpa using swap64_leVal4 _ hr
  · simpa using u64_leVal4 _ hr

theorem read_elf32_short (host : Endian) (ehdr : Elf64_Ehdr) (fd : FILE)
    (h : fd.data.length < 52) :
    read_elf32 host ehdr fd
      = some (-1, ehdr, ⟨fd.maxbytes, fd.data, fd.data.length, fd.trace ++ [.seek 0, .read 0 52]⟩) := by
  have hl : ((fd.data.drop 0).take 52).length = fd.data.length := by
    simp only [List.length_take, List.length_drop]; omega
  have hne : fd.data.length ≠ 52 := by omega
  unfold read_elf32
  simp only [fseeko_zero, fread, hl, sizeof_Elf32_Ehdr]
  rw [if_pos hne]
  simp

theorem read_elf32_header (host : Endian) (ehdr : Elf64_Ehdr) (fd : FILE)
    (hd : (ehdr.e_ident.getD EI_DATA 0).val = ELFDATA2LSB
      ∨ (ehdr.e_ident.getD EI_DATA 0).val = ELFDATA2MSB)
    (hf : (ehdr.e_ident.getD EI_DATA 0).val = dataByte fd.data)
    (h : 52 ≤ fd.data.length) :
    read_elf32 host ehdr fd = shdr_phase32 host (decoded32 ehdr fd.data)
      ⟨fd.maxbytes, fd.data, 52, fd.trace ++ [.seek 0, .read 0 52]⟩ := by
  have hl : ((fd.data.drop 0).take 52).length = 52 := slice_length _ 0 52 (by omega)
  have e1 : file32_to_cpu host ehdr (field host ((fd.data.drop 0).take 52) 32 4)
      = fileField fd.data 32 4 := by
    unfold field fileField
    rw [slice_slice _ 0 52 32 4 (by omega), ← hf]
    exact file32_to_cpu_hostVal host ehdr _ hd (slice_length _ _ _ (by omega))
  have e2 : ∀ x, file16_to_cpu host { ehdr with e_shoff := x }
      (field host ((fd.data.drop 0).take 52) 46 2) = fileField fd.data 46 2 := by
    intro x
    unfold field fileField
    rw [slice_slice _ 0 52 46 2 (by omega), ← hf]
    exact file16_to_cpu_hostVal host _ _ hd (slice_length _ _ _ (by omega))
  have e3 : ∀ x y, file16_to_cpu host { ehdr with e_shoff := x, e_shentsize := y }
      (field host ((fd.data.drop 0).take 52) 48 2) = fileField fd.data 48 2 := by
    intro x y
    unfold field fileField
    rw [slice_slice _ 0 52 48 2 (by omega), ← hf]
    exact file16_to_cpu_hostVal host _ _ hd (slice_length _ _ _ (by omega))
  unfold read_elf32 shdr_phase32 decoded32
  simp only [fseeko_zero, fread, hl, sizeof_Elf32_Ehdr]
  rw [if_neg (by simp)]
  simp only [e1, e2, e3]
  simp

theorem shdr_phase32_ok (host : Endian) (ehdr : Elf64_Ehdr) (fd : FILE) (offset se : Int)
    (hd : (ehdr.e_ident.getD EI_DATA 0).val = ELFDATA2LSB
      ∨ (ehdr.e_ident.getD EI_DATA 0).val = ELFDATA2MSB)
    (hf : (ehdr.e_ident.getD EI_DATA 0).val = dataByte fd.data)
    (hoff : last_shdr_offset ehdr = some offset) (hse : sht_end ehdr = some se)
    (hpos : (fseeko fd offset).pos + 40 ≤ fd.data.length) :
    shdr_phase32 host ehdr fd =
      some
        (if se > off_t_of_u64 (u64 (codeSectionEnd32 host fd.data (fseeko fd offset).pos)) then se
          else off_t_of_u64 (u64 (codeSectionEnd32 host fd.data (fseeko fd offset).pos)),
          ehdr,
          ⟨fd.maxbytes, fd.data, (fseeko fd offset).pos + 40,
            fd.trace ++ [.seek offset, .read (fseeko fd offset).pos 40]⟩) := by
  have hl : ((fd.data.drop (fseeko fd offset).pos).take 40).length = 40 :=
    slice_length _ _ 40 hpos
  have e1 : file64_to_cpu host ehdr
      (field host ((fd.data.drop (fseeko fd offset).pos).take 40) 16 4)
      = widened32 host (dataByte fd.data) ((fd.data.drop ((fseeko fd offset).pos + 16)).take 4) := by
    unfold field
    rw [slice_slice _ _ 40 16 4 (by omega), ← hf]
    exact file64_to_cpu_hostVal4 host ehdr _ hd (slice_length _ _ _ (by omega))
  have e2 : file64_to_cpu host ehdr
      (field host ((fd.data.drop (fseeko fd offset).pos).take 40) 20 4)
      = widened32 host (dataByte fd.data) ((fd.data.drop ((fseeko fd offset).pos + 20)).take 4) := by
    unfold field
    rw [slice_slice _ _ 40 20 4 (by omega), ← hf]
    exact file64_to_cpu_hostVal4 host ehdr _ hd (slice_length _ _ _ (by omega))
  unfold shdr_phase32 codeSectionEnd32
  rw [hoff, hse]
  simp only [fread, fseeko_data, fseeko_trace, fseeko_maxbytes, hl, sizeof_Elf32_Shdr, e1, e2]
  simp

theorem shdr_phase32_short (host : Endian) (ehdr : Elf64_Ehdr) (fd : FILE) (offset : Int)
    (hoff : last_shdr_offset ehdr = some offset)
    (hpos : fd.data.length < (fseeko fd offset).pos + 40) :
    shdr_phase32 host ehdr fd = some (-1, ehdr, (fread (fseeko fd offset) 40).2) := by
  have hl : (((fseeko fd offset).data.drop (fseeko fd offset).pos).take 40).length ≠ 40 := by
    rw [fseeko_data]; exact slice_length_lt _ _ 40 hpos (by omega)
  unfold shdr_phase32
  rw [hoff]
  simp only [fread, sizeof_Elf32_Shdr]
  rw [if_pos hl]

theorem get_elf_size_32 (host : Endian) (lim : Nat) (ehdr : Elf64_Ehdr) (f : List Byte)
    (hlen : 52 ≤ f.length) (hclass : classByte f = ELFCLASS32)
    (hdata : dataByte f = ELFDATA2LSB ∨ dataByte f = ELFDATA2MSB) :
    get_elf_size host lim ehdr (some f) =
      (shdr_phase32 host
        (decoded32 { ehdr with e_ident := f.take 16 ++ ehdr.e_ident.drop 16 } f)
        ⟨lim, f, 52, [.read 0 16, .seek 0, .read 0 52]⟩).map
        fun r => { ret := r.1, ehdr := r.2.1, trace := r.2.2.trace } := by
  have hid := ident_data ehdr f (by omega)
  rw [get_elf_size_dispatch host lim ehdr f (by omega)]
  have h1 : ¬ (dataByte f ≠ ELFDATA2LSB ∧ dataByte f ≠ ELFDATA2MSB) := by
    rcases hdata with h | h <;> simp [h]
  rw [if_neg h1, if_pos hclass]
  rw [read_elf32_header host _ ⟨lim, f, 16, [.read 0 16]⟩ (by rw [hid]; exact hdata) hid hlen]
  rfl

theorem slice_append (f P : List Byte) (p n : Nat) (h : p + n ≤ f.length) :
    ((f ++ P).drop p).take n = (f.drop p).take n := by
  rw [List.drop_append_of_le_length (by omega),
    List.take_append_of_le_length (by rw [List.length_drop]; omega)]

theorem slice_complete (f : List Byte) (p n : Nat) (hn : 0 < n)
    (h : ((f.drop p).take n).length = n) : p + n ≤ f.length := by
  simp only [List.length_take, List.length_drop] at h
  omega

theorem shdr_phase64_append (host : Endian) (ehdr : Elf64_Ehdr) (fd : FILE) (P : List Byte)
    (r : Int × Elf64_Ehdr × FILE) (hfit : (fd.data ++ P).length ≤ fd.maxbytes)
    (h : shdr_phase64 host ehdr fd = some r) (hr : r.1 ≠ -1) :
    shdr_phase64 host ehdr ⟨fd.maxbytes, fd.data ++ P, fd.pos, fd.trace⟩
      = some (r.1, r.2.1, ⟨r.2.2.maxbytes, r.2.2.data ++ P, r.2.2.pos, r.2.2.trace⟩) := by
  unfold shdr_phase64 at h ⊢
  cases hoff : last_shdr_offset ehdr with
  | none => rw [hoff] at h; exact absurd h (by simp)
  | some off =>
    rw [hoff] at h
    have hs : seek_limit ⟨fd.maxbytes, fd.data ++ P, fd.pos, fd.trace⟩ = seek_limit fd := by
      rw [List.length_append] at hfit
      unfold seek_limit
      simp only [List.length_append]
      omega
    have hpos : (fseeko ⟨fd.maxbytes, fd.data ++ P, fd.pos, fd.trace⟩ off).pos
        = (fseeko fd off).pos := by
      rw [fseeko_pos, fseeko_pos, hs]
    simp only [fread, fseeko_data, fseeko_trace, fseeko_maxbytes, hpos, sizeof_Elf64_Shdr]
      at h ⊢
    generalize (fseeko fd off).pos = p at h ⊢
    by_cases hl : ((fd.data.drop p).take 64).length = 64
    · have hp := slice_complete _ _ 64 (by omega) hl
      rw [slice_append _ P _ 64 hp]
      simp only [hl, ne_eq, not_true_eq_false, if_false] at h ⊢
      cases hse : sht_end ehdr with
      | none => rw [hse] at h; exact absurd h (by simp)
      | some se =>
        rw [hse] at h
        simp only [Option.some.injEq] at h ⊢
        rw [← h]
    · simp only [hl, ne_eq, not_false_eq_true, if_true, Option.some.injEq] at h
      rw [← h] at hr
      exact absurd rfl hr

theorem shdr_phase32_append (host : Endian) (ehdr : Elf64_Ehdr) (fd : FILE) (P : List Byte)
    (r : Int × Elf64_Ehdr × FILE) (hfit : (fd.data ++ P).length ≤ fd.maxbytes)
    (h : shdr_phase32 host ehdr fd = some r) (hr : r.1 ≠ -1) :
    shdr_phase32 host ehdr ⟨fd.maxbytes, fd.data ++ P, fd.pos, fd.trace⟩
      = some (r.1, r.2.1, ⟨r.2.2.maxbytes, r.2.2.data ++ P, r.2.2.pos, r.2.2.trace⟩) := by
  unfold shdr_phase32 at h ⊢
  cases hoff : last_shdr_offset ehdr with
  | none => rw [hoff] at h; exact absurd h (by simp)
  | some off =>
    rw [hoff] at h
    have hs : seek_limit ⟨fd.maxbytes, fd.data ++ P, fd.pos, fd.trace⟩ = seek_limit fd := by
      rw [List.length_append] at hfit
      unfold seek_limit
      simp only [List.length_append]
      omega
    have hpos : (fseeko ⟨fd.maxbytes, fd.data ++ P, fd.pos, fd.trace⟩ off).pos
        = (fseeko fd off).pos := by
      rw [fseeko_pos, fseeko_pos, hs]
    simp only [fread, fseeko_data, fseeko_trace, fseeko_maxbytes, hpos, sizeof_Elf32_Shdr]
      at h ⊢
    generalize (fseeko fd off).pos = p at h ⊢
    by_cases hl : ((fd.data.drop p).take 40).length = 40
    · have hp := slice_complete _ _ 40 (by omega) hl
      rw [slice_append _ P _ 40 hp]
      simp only [hl, ne_eq, not_true_eq_false, if_false] at h ⊢
      cases hse : sht_end ehdr with
      | none => rw [hse] at h; exact absurd h (by simp)
      | some se =>
        rw [hse] at h
        simp only [Option.some.injEq] at h ⊢
        rw [← h]
    · simp only [hl, ne_eq, not_false_eq_true, if_true, Option.some.injEq] at h
      rw [← h] at hr
      exact absurd rfl hr

theorem getD_append (f P : List Byte) (i : Nat) (h : i < f.length) :
    (f ++ P).getD i 0 = f.getD i 0 := by
  simp only [List.getD_eq_getElem?_getD]
  rw [List.getElem?_append_left h]

theorem dataByte_append (f P : List Byte) (h : 16 ≤ f.length) :
    dataByte (f ++ P) = dataByte f := by
  unfold dataByte
  rw [getD_append f P _ (by show 5 < f.length; omega)]

theorem classByte_append (f P : List Byte) (h : 16 ≤ f.length) :
    classByte (f ++ P) = classByte f := by
  unfold classByte
  rw [getD_append f P _ (by show 4 < f.length; omega)]

theorem fileField_append (f P : List Byte) (off w : Nat) (h : 16 ≤ f.length)
    (hw : off + w ≤ f.length) : fileField (f ++ P) off w = fileField f off w := by
  unfold fileField
  rw [dataByte_append f P h, slice_append f P off w hw]

theorem take16_append (f P : List Byte) (h : 16 ≤ f.length) :
    (f ++ P).take 16 = f.take 16 := List.take_append_of_le_length h

theorem get_elf_size_short_ident (host : Endian) (lim : Nat) (ehdr : Elf64_Ehdr) (f : List Byte)
    (h : f.length < 16) :
    returned host lim ehdr f = some (-1) := by
  have hl : ((f.drop 0).take 16).length ≠ 16 := by
    simp only [List.length_take, List.length_drop]; omega
  unfold returned get_elf_size
  simp only [fopen, fread, Option.map_some', EI_NIDENT]
  rw [if_pos hl]
  rfl

theorem get_elf_size_append (host : Endian) (lim : Nat) (ehdr : Elf64_Ehdr) (E P : List Byte)
    (o : Outcome) (hfit : (E ++ P).length ≤ lim)
    (h : get_elf_size host lim ehdr (some E) = some o) (ho : o.ret ≠ -1) :
    get_elf_size host lim ehdr (some (E ++ P)) = some o := by
  by_cases h16 : E.length < 16
  · have := get_elf_size_short_ident host lim ehdr E h16
    unfold returned at this
    rw [h] at this
    simp only [Option.map_some', Option.some.injEq] at this
    exact absurd this ho
  have h16 : 16 ≤ E.length := by omega
  have h16' : 16 ≤ (E ++ P).length := by rw [List.length_append]; omega
  rw [get_elf_size_dispatch host lim ehdr E h16] at h
  rw [get_elf_size_dispatch host lim ehdr (E ++ P) h16', dataByte_append E P h16,
    classByte_append E P h16, take16_append E P h16]
  by_cases hd : dataByte E ≠ ELFDATA2LSB ∧ dataByte E ≠ ELFDATA2MSB
  · rw [if_pos hd] at h
    simp only [Option.some.injEq] at h
    rw [← h] at ho
    exact absurd rfl ho
  rw [if_neg hd] at h ⊢
  have hdata : dataByte E = ELFDATA2LSB ∨ dataByte E = ELFDATA2MSB := by
    by_cases h1 : dataByte E = ELFDATA2LSB
    · exact Or.inl h1
    · by_cases h2 : dataByte E = ELFDATA2MSB
      · exact Or.inr h2
      · exact absurd ⟨h1, h2⟩ hd
  have hid := ident_data ehdr E h16
  by_cases hc32 : classByte E = ELFCLASS32
  · rw [if_pos hc32] at h ⊢
    by_cases h52 : E.length < 52
    · rw [read_elf32_short host _ ⟨lim, E, 16, [.read 0 16]⟩ h52] at h
      simp only [Option.map_some', Option.some.injEq] at h
      rw [← h] at ho
      exact absurd rfl ho
    have h52 : 52 ≤ E.length := by omega
    rw [read_elf32_header host _ ⟨lim, E, 16, [.read 0 16]⟩ (by rw [hid]; exact hdata) hid h52] at h
    rw [read_elf32_header host _ ⟨lim, E ++ P, 16, [.read 0 16]⟩ (by rw [hid]; exact hdata)
      (by rw [hid]; exact (dataByte_append E P h16).symm) (by rw [List.length_append]; omega)]
    have hdec : decoded32 { ehdr with e_ident := E.take 16 ++ ehdr.e_ident.drop 16 } (E ++ P)
        = decoded32 { ehdr with e_ident := E.take 16 ++ ehdr.e_ident.drop 16 } E := by
      unfold decoded32
      rw [fileField_append E P 32 4 h16 (by omega), fileField_append E P 46 2 h16 (by omega),
        fileField_append E P 48 2 h16 (by omega)]
    simp only [hdec]
    cases hr : shdr_phase32 host
        (decoded32 { ehdr with e_ident := E.take 16 ++ ehdr.e_ident.drop 16 } E)
        ⟨lim, E, 52, [.read 0 16] ++ [.seek 0, .read 0 52]⟩ with
    | none => rw [hr] at h; exact absurd h (by simp)
    | some r =>
      rw [hr] at h
      simp only [Option.map_some', Option.some.injEq] at h
      have hr1 : r.1 ≠ -1 := by rw [← h] at ho; exact ho
      rw [shdr_phase32_append host _ _ P r hfit hr hr1]
      simp only [Option.map_some', Option.some.injEq]
      exact h
  · rw [if_neg hc32] at h ⊢
    by_cases hc64 : classByte E = ELFCLASS64
    · rw [if_pos hc64] at h ⊢
      by_cases h64 : E.length < 64
      · rw [read_elf64_short host _ ⟨lim, E, 16, [.read 0 16]⟩ h64] at h
        simp only [Option.map_some', Option.some.injEq] at h
        rw [← h] at ho
        exact absurd rfl ho
      have h64 : 64 ≤ E.length := by omega
      rw [read_elf64_header host _ ⟨lim, E, 16, [.read 0 16]⟩ (by rw [hid]; exact hdata) hid h64] at h
      rw [read_elf64_header host _ ⟨lim, E ++ P, 16, [.read 0 16]⟩ (by rw [hid]; exact hdata)
        (by rw [hid]; exact (dataByte_append E P h16).symm) (by rw [List.length_append]; omega)]
      have hdec : decoded64 { ehdr with e_ident := E.take 16 ++ ehdr.e_ident.drop 16 } (E ++ P)
          = decoded64 { ehdr with e_ident := E.take 16 ++ ehdr.e_ident.drop 16 } E := by
        unfold decoded64
        rw [fileField_append E P 40 8 h16 (by omega), fileField_append E P 58 2 h16 (by omega),
          fileField_append E P 60 2 h16 (by omega)]
      simp only [hdec]
      cases hr : shdr_phase64 host
          (decoded64 { ehdr with e_ident := E.take 16 ++ ehdr.e_ident.drop 16 } E)
          ⟨lim, E, 64, [.read 0 16] ++ [.seek 0, .read 0 64]⟩ with
      | none => rw [hr] at h; exact absurd h (by simp)
      | some r =>
        rw [hr] at h
        simp only [Option.map_some', Option.some.injEq] at h
        have hr1 : r.1 ≠ -1 := by rw [← h] at ho; exact ho
        rw [shdr_phase64_append host _ _ P r hfit hr hr1]
        simp only [Option.map_some', Option.some.injEq]
        exact h
    · rw [if_neg hc64] at h
      simp only [Option.some.injEq] at h
      rw [← h] at ho
      exact absurd rfl ho

theorem fileOrderVal_lt (data : Nat) (bs : List Byte) :
    fileOrderVal data bs < 256 ^ bs.length := by
  unfold fileOrderVal
  split
  · simpa using leVal_lt bs.reverse
  · exact leVal_lt bs

theorem fileField_lt (f : List Byte) (off w : Nat) : fileField f off w < 256 ^ w := by
  unfold fileField
  have h1 := fileOrderVal_lt (dataByte f) ((f.drop off).take w)
  have h2 : ((f.drop off).take w).length ≤ w := by
    rw [List.length_take]; exact Nat.min_le_left _ _
  exact Nat.lt_of_lt_of_le h1 (Nat.pow_le_pow_right (by omega) h2)

theorem int_mul_eq_some_iff (a b p : Int) :
    int_mul a b = some p ↔ p = a * b ∧ -(2 ^ 31) ≤ a * b ∧ a * b < 2 ^ 31 := by
  unfold int_mul
  split
  · simp only [Option.some.injEq]
    constructor
    · intro h; exact ⟨h.symm, by omega⟩
    · intro h; exact h.1.symm
  · constructor
    · intro h; exact absurd h (by simp)
    · intro h; omega

theorem native_recognised (host : Endian) :
    ELFDATANATIVE host = ELFDATA2LSB ∨ ELFDATANATIVE host = ELFDATA2MSB := by
  cases host
  · exact Or.inl rfl
  · exact Or.inr rfl

theorem toBytes_length (n v : Nat) : (toBytes n v).length = n := by
  induction n generalizing v with
  | zero => rfl
  | succ n ih => simp [toBytes, ih]

theorem leVal_toBytes (n v : Nat) (h : v < 256 ^ n) : leVal (toBytes n v) = v := by
  induction n generalizing v with
  | zero => simp [toBytes, leVal] at h ⊢; omega
  | succ n ih =>
    have h1 : v / 256 < 256 ^ n := by
      rw [pow_succ] at h
      exact Nat.div_lt_of_lt_mul (by rw [Nat.mul_comm]; exact h)
    simp only [toBytes, leVal, ih _ h1]
    omega

theorem byteAt_leVal (bs : List Byte) (i : Nat) :
    byteAt (leVal bs) i = (bs.getD i 0).val := by
  induction bs generalizing i with
  | nil => simp [leVal, byteAt]
  | cons b bs ih =>
    have hb := b.isLt
    cases i with
    | zero =>
      simp only [leVal, byteAt, pow_zero, Nat.div_one, List.getD_cons_zero]
      omega
    | succ i =>
      have := ih i
      unfold byteAt at this ⊢
      simp only [leVal, List.getD_cons_succ]
      rw [← this, pow_succ, Nat.mul_comm (256 ^ i) 256, ← Nat.div_div_eq_div_mul]
      congr 2
      omega

theorem getD_reverse (bs : List Byte) (i : Nat) (h : i < bs.length) :
    bs.reverse.getD i 0 = bs.getD (bs.length - 1 - i) 0 := by
  simp only [List.getD_eq_getElem?_getD]
  rw [List.getElem?_reverse h]

theorem byteAt_leVal_reverse (bs : List Byte) (i : Nat) (h : i < bs.length) :
    byteAt (leVal bs.reverse) i = byteAt (leVal bs) (bs.length - 1 - i) := by
  rw [byteAt_leVal, byteAt_leVal, getD_reverse bs i h]

theorem swap16_nat (v : Nat) (h : v < 2 ^ 16) :
    u16 (bswap_16 (u16 v)) = leVal (toBytes 2 v).reverse := by
  have e := leVal_toBytes 2 v (by omega)
  have := swap16_leVal (toBytes 2 v) (toBytes_length 2 v)
  rw [e] at this
  exact this

theorem swap32_nat (v : Nat) (h : v < 2 ^ 32) :
    u32 (bswap_32 (u32 v)) = leVal (toBytes 4 v).reverse := by
  have e := leVal_toBytes 4 v (by omega)
  have := swap32_leVal (toBytes 4 v) (toBytes_length 4 v)
  rw [e] at this
  exact this

theorem swap64_nat (v : Nat) (h : v < 2 ^ 64) :
    u64 (bswap_64 (u64 v)) = leVal (toBytes 8 v).reverse := by
  have e := leVal_toBytes 8 v (by omega)
  have := swap64_leVal (toBytes 8 v) (toBytes_length 8 v)
  rw [e] at this
  exact this

theorem bswap_16_twice (v : Nat) (h : v < 2 ^ 16) : bswap_16 (bswap_16 v) = v := by
  have e := leVal_toBytes 2 v (by omega)
  have hl := toBytes_length 2 v
  rw [← e, bswap_16_leVal _ hl, bswap_16_leVal _ (by simpa using hl), List.reverse_reverse]

theorem bswap_32_twice (v : Nat) (h : v < 2 ^ 32) : bswap_32 (bswap_32 v) = v := by
  have e := leVal_toBytes 4 v (by omega)
  have hl := toBytes_length 4 v
  rw [← e, bswap_32_leVal _ hl, bswap_32_leVal _ (by simpa using hl), List.reverse_reverse]

theorem bswap_64_twice (v : Nat) (h : v < 2 ^ 64) : bswap_64 (bswap_64 v) = v := by
  have e := leVal_toBytes 8 v (by omega)
  have hl := toBytes_length 8 v
  rw [← e, bswap_64_leVal _ hl, bswap_64_leVal _ (by simpa using hl), List.reverse_reverse]

theorem file16_to_cpu_foreign (host : Endian) (ehdr : Elf64_Ehdr) (v : Nat)
    (hne : (ehdr.e_ident.getD EI_DATA 0).val ≠ ELFDATANATIVE host) :
    file16_to_cpu host ehdr v = u16 (bswap_16 (u16 v)) := by
  unfold file16_to_cpu
  rw [if_pos hne]

theorem file32_to_cpu_foreign (host : Endian) (ehdr : Elf64_Ehdr) (v : Nat)
    (hne : (ehdr.e_ident.getD EI_DATA 0).val ≠ ELFDATANATIVE host) :
    file32_to_cpu host ehdr v = u32 (bswap_32 (u32 v)) := by
  unfold file32_to_cpu
  rw [if_pos hne]

theorem file64_to_cpu_foreign (host : Endian) (ehdr : Elf64_Ehdr) (v : Nat)
    (hne : (ehdr.e_ident.getD EI_DATA 0).val ≠ ELFDATANATIVE host) :
    file64_to_cpu host ehdr v = u64 (bswap_64 (u64 v)) := by
  unfold file64_to_cpu
  rw [if_pos hne]

theorem file16_to_cpu_native (host : Endian) (ehdr : Elf64_Ehdr) (v : Nat)
    (heq : (ehdr.e_ident.getD EI_DATA 0).val = ELFDATANATIVE host) :
    file16_to_cpu host ehdr v = u16 v := by
  unfold file16_to_cpu
  rw [if_neg (not_not.mpr heq)]

theorem file32_to_cpu_native (host : Endian) (ehdr : Elf64_Ehdr) (v : Nat)
    (heq : (ehdr.e_ident.getD EI_DATA 0).val = ELFDATANATIVE host) :
    file32_to_cpu host ehdr v = u32 v := by
  unfold file32_to_cpu
  rw [if_neg (not_not.mpr heq)]

theorem file64_to_cpu_native (host : Endian) (ehdr : Elf64_Ehdr) (v : Nat)
    (heq : (ehdr.e_ident.getD EI_DATA 0).val = ELFDATANATIVE host) :
    file64_to_cpu host ehdr v = u64 v := by
  unfold file64_to_cpu
  rw [if_neg (not_not.mpr heq)]

theorem u16_of_lt (v : Nat) (h : v < 2 ^ 16) : u16 v = v := Nat.mod_eq_of_lt h

theorem u32_of_lt (v : Nat) (h : v < 2 ^ 32) : u32 v = v := Nat.mod_eq_of_lt h

theorem u64_of_lt (v : Nat) (h : v < 2 ^ 64) : u64 v = v := Nat.mod_eq_of_lt h

theorem leVal_reverse_lt (n v : Nat) : leVal (toBytes n v).reverse < 256 ^ n := by
  have := leVal_lt (toBytes n v).reverse
  rwa [List.length_reverse, toBytes_length] at this

theorem byteAt_swapped (n v i : Nat) (hv : v < 256 ^ n) (hi : i < n) :
    byteAt (leVal (toBytes n v).reverse) i = byteAt v (n - 1 - i) := by
  have := byteAt_leVal_reverse (toBytes n v) i (by rw [toBytes_length]; exact hi)
  rw [toBytes_length, leVal_toBytes n v hv] at this
  exact this

theorem last_shdr_offset_congr (a b : Elf64_Ehdr) (h1 : a.e_shoff = b.e_shoff)
    (h2 : a.e_shentsize = b.e_shentsize) (h3 : a.e_shnum = b.e_shnum) :
    last_shdr_offset a = last_shdr_offset b := by
  unfold last_shdr_offset
  rw [h1, h2, h3]

theorem sht_end_congr (a b : Elf64_Ehdr) (h1 : a.e_shoff = b.e_shoff)
    (h2 : a.e_shentsize = b.e_shentsize) (h3 : a.e_shnum = b.e_shnum) :
    sht_end a = sht_end b := by
  unfold sht_end
  rw [h1, h2, h3]

theorem file64_to_cpu_congr (host : Endian) (a b : Elf64_Ehdr)
    (hd : (a.e_ident.getD EI_DATA 0).val = (b.e_ident.getD EI_DATA 0).val) (x : Nat) :
    file64_to_cpu host a x = file64_to_cpu host b x := by
  unfold file64_to_cpu
  rw [hd]

theorem shdr_phase64_congr (host : Endian) (a b : Elf64_Ehdr) (fd gd : FILE)
    (hd : (a.e_ident.getD EI_DATA 0).val = (b.e_ident.getD EI_DATA 0).val)
    (h1 : a.e_shoff = b.e_shoff) (h2 : a.e_shentsize = b.e_shentsize)
    (h3 : a.e_shnum = b.e_shnum)
    (hpos : ∀ off, last_shdr_offset a = some off → (fseeko gd off).pos = (fseeko fd off).pos)
    (hbytes : ∀ off, last_shdr_offset a = some off →
      (gd.data.drop (fseeko fd off).pos).take 64
        = (fd.data.drop (fseeko fd off).pos).take 64) :
    (shdr_phase64 host a fd).map Prod.fst = (shdr_phase64 host b gd).map Prod.fst := by
  have hlo := last_shdr_offset_congr a b h1 h2 h3
  have hse := sht_end_congr a b h1 h2 h3
  have hcv := file64_to_cpu_congr host a b hd
  unfold shdr_phase64
  rw [← hlo, ← hse]
  cases hoff : last_shdr_offset a with
  | none => rfl
  | some off =>
    have hb := hbytes off hoff
    have hp := hpos off hoff
    simp only [fread, fseeko_data, sizeof_Elf64_Shdr, hp, hb, ← hcv]
    generalize (fseeko fd off).pos = p
    by_cases hl : ((fd.data.drop p).take 64).length = 64
    · simp only [hl, ne_eq, not_true_eq_false, if_false]
      cases sht_end a with
      | none => rfl
      | some se => rfl
    · simp only [hl, ne_eq, not_false_eq_true, if_true]
      rfl

theorem shdr_phase32_congr (host : Endian) (a b : Elf64_Ehdr) (fd gd : FILE)
    (hd : (a.e_ident.getD EI_DATA 0).val = (b.e_ident.getD EI_DATA 0).val)
    (h1 : a.e_shoff = b.e_shoff) (h2 : a.e_shentsize = b.e_shentsize)
    (h3 : a.e_shnum = b.e_shnum)
    (hpos : ∀ off, last_shdr_offset a = some off → (fseeko gd off).pos = (fseeko fd off).pos)
    (hbytes : ∀ off, last_shdr_offset a = some off →
      (gd.data.drop (fseeko fd off).pos).take 40
        = (fd.data.drop (fseeko fd off).pos).take 40) :
    (shdr_phase32 host a fd).map Prod.fst = (shdr_phase32 host b gd).map Prod.fst := by
  have hlo := last_shdr_offset_congr a b h1 h2 h3
  have hse := sht_end_congr a b h1 h2 h3
  have hcv := file64_to_cpu_congr host a b hd
  unfold shdr_phase32
  rw [← hlo, ← hse]
  cases hoff : last_shdr_offset a with
  | none => rfl
  | some off =>
    have hb := hbytes off hoff
    have hp := hpos off hoff
    simp only [fread, fseeko_data, sizeof_Elf32_Shdr, hp, hb, ← hcv]
    generalize (fseeko fd off).pos = p
    by_cases hl : ((fd.data.drop p).take 40).length = 40
    · simp only [hl, ne_eq, not_true_eq_false, if_false]
      cases sht_end a with
      | none => rfl
      | some se => rfl
    · simp only [hl, ne_eq, not_false_eq_true, if_true]
      rfl

theorem map_ret_map (x : Option (Int × Elf64_Ehdr × FILE)) :
    (x.map fun r => ({ ret := r.1, ehdr := r.2.1, trace := r.2.2.trace } : Outcome)).map
        Outcome.ret
      = x.map Prod.fst := by
  cases x <;> rfl

theorem last_shdr_offset_exact (ehdr : Elf64_Ehdr) (L : Nat) (off : Int)
    (hL : (L : Int) = (ehdr.e_shoff : Int) + (ehdr.e_shentsize : Int) * ((ehdr.e_shnum : Int) - 1))
    (hb : L < 2 ^ 63) (h : last_shdr_offset ehdr = some off) : off = (L : Int) := by
  unfold last_shdr_offset at h
  cases hm : int_mul (ehdr.e_shentsize : Int) ((ehdr.e_shnum : Int) - 1) with
  | none => rw [hm] at h; exact absurd h (by simp)
  | some p =>
    rw [hm] at h
    simp only [Option.map_some', Option.some.injEq] at h
    obtain ⟨hp, hlo, hhi⟩ := (int_mul_eq_some_iff _ _ p).mp hm
    rw [← hp] at hL hlo hhi
    have e : u64 (ehdr.e_shoff + u64_of_int p) = L := by
      unfold u64 u64_of_int
      omega
    rw [e, off_t_of_u64_small L hb] at h
    exact h.symm

theorem take_eq_of_short (f g : List Byte) (H : Nat) (h : f.take H = g.take H)
    (hs : f.length < H) : f = g := by
  have hl := congrArg List.length h
  simp only [List.length_take] at hl
  have hg : g.length < H := by omega
  rw [List.take_of_length_le (by omega), List.take_of_length_le (by omega)] at h
  exact h

theorem length_of_take_eq (f g : List Byte) (H : Nat) (h : f.take H = g.take H)
    (hs : H ≤ f.length) : H ≤ g.length := by
  have hl := congrArg List.length h
  simp only [List.length_take] at hl
  omega

theorem slice_of_take_eq (f g : List Byte) (H off w : Nat) (h : f.take H = g.take H)
    (hw : off + w ≤ H) : (f.drop off).take w = (g.drop off).take w := by
  have a := slice_slice f 0 H off w hw
  have b := slice_slice g 0 H off w hw
  simp only [List.drop_zero, Nat.zero_add] at a b
  rw [← a, ← b, h]

theorem getD_of_take_eq (f g : List Byte) (H i : Nat) (h : f.take H = g.take H)
    (hi : i < H) : f.getD i 0 = g.getD i 0 := by
  have a : (f.take H).getD i 0 = f.getD i 0 := by
    simp only [List.getD_eq_getElem?_getD, List.getElem?_take, hi, if_true]
  have b : (g.take H).getD i 0 = g.getD i 0 := by
    simp only [List.getD_eq_getElem?_getD, List.getElem?_take, hi, if_true]
  rw [← a, ← b, h]

theorem fileField_of_take_eq (f g : List Byte) (H off w : Nat) (h : f.take H = g.take H)
    (h6 : 6 ≤ H) (hw : off + w ≤ H) : fileField f off w = fileField g off w := by
  unfold fileField dataByte
  rw [slice_of_take_eq f g H off w h hw, getD_of_take_eq f g H EI_DATA h (by show 5 < H; omega)]

theorem int_mul_ne_none (a b : Int) (h : (a * b).natAbs < 2 ^ 31) : int_mul a b ≠ none := by
  unfold int_mul
  rw [if_pos (Or.inl h)]
  exact Option.some_ne_none _

theorem last_shdr_offset_ne_none (ehdr : Elf64_Ehdr) (hs : ehdr.e_shentsize < 2 ^ 16)
    (hm : ehdr.e_shentsize * ehdr.e_shnum < 2 ^ 31) : last_shdr_offset ehdr ≠ none := by
  have hi : int_mul (ehdr.e_shentsize : Int) ((ehdr.e_shnum : Int) - 1) ≠ none := by
    apply int_mul_ne_none
    rcases Nat.eq_zero_or_pos ehdr.e_shnum with h0 | hpos
    · rw [h0]
      have e : (ehdr.e_shentsize : Int) * (((0 : Nat) : Int) - 1)
          = -(ehdr.e_shentsize : Int) := by ring
      rw [e, Int.natAbs_neg, Int.natAbs_ofNat]
      omega
    · have e : (ehdr.e_shnum : Int) - 1 = ((ehdr.e_shnum - 1 : Nat) : Int) := by omega
      have hle : ehdr.e_shentsize * (ehdr.e_shnum - 1) ≤ ehdr.e_shentsize * ehdr.e_shnum :=
        Nat.mul_le_mul_left _ (Nat.sub_le _ _)
      rw [e, ← Int.ofNat_mul, Int.natAbs_ofNat]
      omega
  unfold last_shdr_offset
  cases h : int_mul (ehdr.e_shentsize : Int) ((ehdr.e_shnum : Int) - 1) with
  | none => exact absurd h hi
  | some p => simp

theorem sht_end_ne_none (ehdr : Elf64_Ehdr)
    (hm : ehdr.e_shentsize * ehdr.e_shnum < 2 ^ 31) : sht_end ehdr ≠ none := by
  unfold sht_end
  rw [int_mul_natCast _ _ hm]
  simp

theorem shdr_phase64_ne_none (host : Endian) (ehdr : Elf64_Ehdr) (fd : FILE)
    (hlo : last_shdr_offset ehdr ≠ none) (hse : sht_end ehdr ≠ none) :
    shdr_phase64 host ehdr fd ≠ none := by
  unfold shdr_phase64
  cases h1 : last_shdr_offset ehdr with
  | none => exact absurd h1 hlo
  | some off =>
    cases h2 : sht_end ehdr with
    | none => exact absurd h2 hse
    | some se =>
      simp only [fread]
      split <;> simp

theorem shdr_phase32_ne_none (host : Endian) (ehdr : Elf64_Ehdr) (fd : FILE)
    (hlo : last_shdr_offset ehdr ≠ none) (hse : sht_end ehdr ≠ none) :
    shdr_phase32 host ehdr fd ≠ none := by
  unfold shdr_phase32
  cases h1 : last_shdr_offset ehdr with
  | none => exact absurd h1 hlo
  | some off =>
    cases h2 : sht_end ehdr with
    | none => exact absurd h2 hse
    | some se =>
      simp only [fread]
      split <;> simp

theorem returned_defined (host : Endian) (lim : Nat) (ehdr : Elf64_Ehdr) (f : List Byte)
    (hmul : shentsizeOf f * shnumOf f < 2 ^ 31) : returned host lim ehdr f ≠ none := by
  by_cases h16 : f.length < 16
  · rw [get_elf_size_short_ident host lim ehdr f h16]; exact Option.some_ne_none _
  have h16 : 16 ≤ f.length := by omega
  have hid := ident_data ehdr f h16
  unfold returned
  rw [get_elf_size_dispatch host lim ehdr f h16]
  by_cases hd : dataByte f ≠ ELFDATA2LSB ∧ dataByte f ≠ ELFDATA2MSB
  · rw [if_pos hd]; exact Option.some_ne_none _
  rw [if_neg hd]
  have hdata : dataByte f = ELFDATA2LSB ∨ dataByte f = ELFDATA2MSB := by
    by_cases h1 : dataByte f = ELFDATA2LSB
    · exact Or.inl h1
    · by_cases h2 : dataByte f = ELFDATA2MSB
      · exact Or.inr h2
      · exact absurd ⟨h1, h2⟩ hd
  by_cases hc32 : classByte f = ELFCLASS32
  · rw [if_pos hc32]
    by_cases h52 : f.length < 52
    · rw [read_elf32_short host _ ⟨lim, f, 16, [.read 0 16]⟩ h52]; exact Option.some_ne_none _
    have h52 : 52 ≤ f.length := by omega
    simp only [shnumOf, shentsizeOf, if_pos hc32] at hmul
    have hs : shentsize32 f < 256 ^ 2 := fileField_lt f 46 2
    rw [read_elf32_header host _ ⟨lim, f, 16, [.read 0 16]⟩ (by rw [hid]; exact hdata) hid h52,
      map_ret_map]
    intro hn
    rw [Option.map_eq_none'] at hn
    exact shdr_phase32_ne_none host _ _
      (last_shdr_offset_ne_none _ (by show shentsize32 f < 2 ^ 16; omega) hmul)
      (sht_end_ne_none _ hmul) hn
  · rw [if_neg hc32]
    by_cases hc64 : classByte f = ELFCLASS64
    · rw [if_pos hc64]
      by_cases h64 : f.length < 64
      · rw [read_elf64_short host _ ⟨lim, f, 16, [.read 0 16]⟩ h64]
        exact Option.some_ne_none _
      have h64 : 64 ≤ f.length := by omega
      simp only [shnumOf, shentsizeOf, if_neg hc32] at hmul
      have hs : shentsize64 f < 256 ^ 2 := fileField_lt f 58 2
      rw [read_elf64_header host _ ⟨lim, f, 16, [.read 0 16]⟩ (by rw [hid]; exact hdata) hid
        h64, map_ret_map]
      intro hn
      rw [Option.map_eq_none'] at hn
      exact shdr_phase64_ne_none host _ _
        (last_shdr_offset_ne_none _ (by show shentsize64 f < 2 ^ 16; omega) hmul)
        (sht_end_ne_none _ hmul) hn
    · rw [if_neg hc64]; exact Option.some_ne_none _

/-! ## The claims -/

/-- C1: on a file of the 64-bit class with a recognised data encoding, at
least one section header, the 64 bytes of the last section header inside the
file, `entry_size × count < 2^31` and both candidate ends below `2^63`,
`get_elf_size` returns the larger of the end of the section header table and
the end of the last section, all fields read in the file's byte order. -/
theorem elf64_resolved_size (host : Endian) (lim : Nat) (ehdr : Elf64_Ehdr) (f : List Byte)
    (hclass : classByte f = ELFCLASS64)
    (hdata : dataByte f = ELFDATA2LSB ∨ dataByte f = ELFDATA2MSB)
    (hnum : 1 ≤ shnum64 f)
    (hin : lastShdr64 f + 64 ≤ f.length)
    (hmul : shentsize64 f * shnum64 f < 2 ^ 31)
    (hsht : shtEnd64 f < 2 ^ 63)
    (hsec : sectionEnd64 f (lastShdr64 f) < 2 ^ 63) :
    returned host lim ehdr f
      = some ((max (shtEnd64 f) (sectionEnd64 f (lastShdr64 f)) : Nat) : Int) :=
  returned_elf64_of_bounds host lim ehdr f hclass hdata hnum hin hmul hsht hsec

set_option maxRecDepth 1000000 in
/-- C1, the two scenarios of the specification: table at `0x1000` with 30
entries of 64 bytes; a last section `(0x0FE0, 0x10)` gives `0x1780`, a last
section `(0x2000, 0x500)` gives `0x2500`. -/
theorem elf64_resolved_size_witness :
    returned .little ext4_maxbytes ehdr0 scenarioA = some 0x1780
      ∧ returned .little ext4_maxbytes ehdr0 scenarioB = some 0x2500 := by
  constructor
  · rw [elf64_resolved_size .little ext4_maxbytes ehdr0 scenarioA (by decide!) (by decide!) (by decide!)
      (by decide!) (by decide!) (by decide!) (by decide!)]
    decide!
  · rw [elf64_resolved_size .little ext4_maxbytes ehdr0 scenarioB (by decide!) (by decide!) (by decide!)
      (by decide!) (by decide!) (by decide!) (by decide!)]
    decide!

/-- C2: when `get_elf_size` returns exactly the length of a file `E`, it
returns the same value on `E` followed by any non-empty payload `P`, and that
value is strictly less than the length of `E ++ P`. The file with its payload
is no larger than the largest offset of its file system, as every file is. -/
theorem appended_payload_ignored (host : Endian) (lim : Nat) (ehdr : Elf64_Ehdr)
    (E P : List Byte) (hP : P ≠ []) (hfit : (E ++ P).length ≤ lim)
    (h : returned host lim ehdr E = some (E.length : Int)) :
    returned host lim ehdr (E ++ P) = some (E.length : Int)
      ∧ E.length < (E ++ P).length := by
  unfold returned at h ⊢
  cases hg : get_elf_size host lim ehdr (some E) with
  | none => rw [hg] at h; exact absurd h (by simp)
  | some o =>
    rw [hg] at h
    simp only [Option.map_some', Option.some.injEq] at h
    have ho : o.ret ≠ -1 := by rw [h]; omega
    rw [get_elf_size_append host lim ehdr E P o hfit hg ho]
    refine ⟨by simp only [Option.map_some', h], ?_⟩
    have := List.length_pos.mpr hP
    rw [List.length_append]
    omega

set_option maxRecDepth 100000 in
/-- C2 on the 128-byte file `compact64` followed by one byte. -/
theorem appended_payload_ignored_witness :
    returned .little ext4_maxbytes ehdr0 (compact64 ++ [0x2a]) = some 128
      ∧ compact64.length < (compact64 ++ [0x2a]).length :=
  appended_payload_ignored .little ext4_maxbytes ehdr0 compact64 [0x2a] (by decide)
    (by decide) (by decide)

/-- C3: a 64-bit little-endian file with section header entries of 64 bytes,
at least one of them, that ends with its section header table and whose last
section ends at or before that point, is resolved to its own length. The
length is an `off_t` value, as the size of every file is. -/
theorem elf64_le_without_trailing_data (host : Endian) (lim : Nat) (ehdr : Elf64_Ehdr)
    (f : List Byte)
    (hclass : classByte f = ELFCLASS64) (hdata : dataByte f = ELFDATA2LSB)
    (hent : shentsize64 f = 64) (hnum : 1 ≤ shnum64 f)
    (hlen : f.length = shoff64 f + 64 * shnum64 f)
    (hsec : sectionEnd64 f (lastShdr64 f) ≤ shoff64 f + 64 * shnum64 f)
    (hsize : f.length < 2 ^ 63) :
    returned host lim ehdr f = some (f.length : Int) := by
  have hn : shnum64 f < 256 ^ 2 := fileField_lt f 60 2
  have hin : lastShdr64 f + 64 ≤ f.length := by
    unfold lastShdr64; rw [hent]; omega
  have hmul : shentsize64 f * shnum64 f < 2 ^ 31 := by rw [hent]; omega
  have hsht : shtEnd64 f = f.length := by unfold shtEnd64; rw [hent]; omega
  rw [returned_elf64_of_bounds host lim ehdr f hclass (Or.inl hdata) hnum hin hmul
    (by rw [hsht]; exact hsize) (by omega), hsht]
  congr 2
  omega

set_option maxRecDepth 100000 in
/-- C3 on the 128-byte file `compact64`. -/
theorem elf64_le_without_trailing_data_witness :
    returned .little ext4_maxbytes ehdr0 compact64 = some ((compact64.length : Nat) : Int) :=
  elf64_le_without_trailing_data .little ext4_maxbytes ehdr0 compact64 (by decide) (by decide)
    (by decide)
    (by decide) (by decide) (by decide) (by decide)

/-- C4, amended: on a file of the 32-bit class that holds a complete ELF
header of 52 bytes and whose data encoding is the host's, with at least one
section header, `entry_size × count < 2^31` and the 40 bytes of the last
section header inside the file, `get_elf_size` returns the larger of the end
of the section header table and `section_offset + section_size` of the last
section header, the sum taken without wrapping at 32 bits. -/
theorem elf32_native_resolved_size (host : Endian) (lim : Nat) (ehdr : Elf64_Ehdr) (f : List Byte)
    (hclass : classByte f = ELFCLASS32) (hdata : dataByte f = ELFDATANATIVE host)
    (hhdr : sizeof_Elf32_Ehdr ≤ f.length)
    (hnum : 1 ≤ shnum32 f)
    (hmul : shentsize32 f * shnum32 f < 2 ^ 31)
    (hin : lastShdr32 f + 40 ≤ f.length) :
    returned host lim ehdr f
      = some ((max (shtEnd32 f) (sectionEnd32 f (lastShdr32 f)) : Nat) : Int) := by
  have hrec : dataByte f = ELFDATA2LSB ∨ dataByte f = ELFDATA2MSB := by
    rw [hdata]; exact native_recognised host
  have hid := ident_data ehdr f (by omega)
  have hoffb : shoff32 f < 256 ^ 4 := fileField_lt f 32 4
  have ha : fileField f (lastShdr32 f + 16) 4 < 256 ^ 4 := fileField_lt f _ 4
  have hb : fileField f (lastShdr32 f + 20) 4 < 256 ^ 4 := fileField_lt f _ 4
  have hsplit : shentsize32 f * shnum32 f
      = shentsize32 f * (shnum32 f - 1) + shentsize32 f := by
    obtain ⟨k, hk⟩ : ∃ k, shnum32 f = k + 1 := ⟨shnum32 f - 1, by omega⟩
    rw [hk, Nat.add_sub_cancel, Nat.mul_succ]
  have hsht : shtEnd32 f < 2 ^ 63 := by unfold shtEnd32; omega
  have hL : lastShdr32 f < 2 ^ 63 := by unfold lastShdr32; omega
  have hoff : last_shdr_offset
      (decoded32 { ehdr with e_ident := f.take 16 ++ ehdr.e_ident.drop 16 } f)
      = some ((lastShdr32 f : Nat) : Int) :=
    last_shdr_offset_eq _ hnum (by show shentsize32 f * (shnum32 f - 1) < 2 ^ 31; omega) hL
  have hse : sht_end
      (decoded32 { ehdr with e_ident := f.take 16 ++ ehdr.e_ident.drop 16 } f)
      = some ((shtEnd32 f : Nat) : Int) := sht_end_eq _ hmul hsht
  have hp : (fseeko ⟨lim, f, 52, [.read 0 16, .seek 0, .read 0 52]⟩ (lastShdr32 f : Int)).pos
      = lastShdr32 f := fseeko_pos_inside _ _ (by show lastShdr32 f ≤ f.length; omega)
  have hcode : codeSectionEnd32 host f (lastShdr32 f) = sectionEnd32 f (lastShdr32 f) := by
    unfold codeSectionEnd32 sectionEnd32 widened32 fileField
    rw [if_pos hdata, if_pos hdata]
  unfold returned
  rw [get_elf_size_32 host lim ehdr f hhdr hclass hrec,
    shdr_phase32_ok host _ _ _ _ (by rw [decoded32, hid]; exact hrec) (by rw [decoded32, hid])
      hoff hse (by rw [hp]; exact hin)]
  simp only [Option.map_some', hp, hcode]
  have hs : sectionEnd32 f (lastShdr32 f) < 2 ^ 63 := by unfold sectionEnd32; omega
  have e : u64 (sectionEnd32 f (lastShdr32 f)) = sectionEnd32 f (lastShdr32 f) :=
    Nat.mod_eq_of_lt (by omega)
  rw [e, off_t_of_u64_small _ hs]
  congr 1
  split <;> omega

set_option maxRecDepth 100000 in
/-- C4 as stated fails on the 50-byte file `short32`: the class is 32-bit, the
encoding is the host's, one section header of 40 bytes is declared at offset
0 and lies inside the file, yet the read of the 52-byte ELF header is short
and the call returns -1 where the claim promises 40. -/
theorem elf32_native_short_header :
    classByte short32 = ELFCLASS32 ∧ dataByte short32 = ELFDATANATIVE .little
      ∧ 1 ≤ shnum32 short32 ∧ shentsize32 short32 * shnum32 short32 < 2 ^ 31
      ∧ lastShdr32 short32 + 40 ≤ short32.length
      ∧ max (shtEnd32 short32) (sectionEnd32 short32 (lastShdr32 short32)) = 40
      ∧ returned .little ext4_maxbytes ehdr0 short32 = some (-1)
      ∧ returned .little tmpfs_maxbytes ehdr0 short32 = some (-1) := by
  decide

set_option maxRecDepth 100000 in
/-- C4 on the 92-byte file `wide32`, whose last section has offset and size
`0xFFFFFFFF`: the sum `0x1FFFFFFFE` is returned. -/
theorem elf32_native_resolved_size_witness :
    returned .little ext4_maxbytes ehdr0 wide32 = some 0x1FFFFFFFE := by
  rw [elf32_native_resolved_size .little ext4_maxbytes ehdr0 wide32 (by decide) (by decide) (by decide)
    (by decide) (by decide) (by decide)]
  decide

set_option maxRecDepth 100000 in
/-- C5 fails on the code: `bigEndian32` is a 32-bit big-endian file read on a
little-endian host, with one section header at offset 52 describing a section
at `0x20` of size `0x10`. The claim promises `max 92 0x30 = 92`; line 83
passes the 32-bit fields to `file64_to_cpu`, whose 64-bit swap leaves each
value in the upper half of the word, and the call returns `0x30 * 2^32`. -/
theorem elf32_foreign_order_section_end :
    classByte bigEndian32 = ELFCLASS32 ∧ dataByte bigEndian32 ≠ ELFDATANATIVE .little
      ∧ shnum32 bigEndian32 = 1 ∧ lastShdr32 bigEndian32 + 40 ≤ bigEndian32.length
      ∧ shtEnd32 bigEndian32 = 92
      ∧ sectionEnd32 bigEndian32 (lastShdr32 bigEndian32) = 0x30
      ∧ returned .little ext4_maxbytes ehdr0 bigEndian32 = some (0x30 * 2 ^ 32)
      ∧ returned .little tmpfs_maxbytes ehdr0 bigEndian32 = some (0x30 * 2 ^ 32) := by
  decide

set_option maxRecDepth 100000 in
/-- C6 fails on the code: with `e_shentsize = e_shnum = 0xFFFF` the product on
lines 82 and 118 is computed in `int` and overflows, so that `sht_end` is not
`64 + 0xFFFF * 0xFFFF`: the behaviour is undefined, already at the product on
line 108 when such a header is read from a file. With `e_shentsize = 0x8001`
the product on line 108 still fits and only that of line 118 overflows. -/
theorem sht_end_int_overflow :
    sht_end ⟨[], 64, 0xFFFF, 0xFFFF⟩ = none
      ∧ last_shdr_offset ⟨[], 64, 0x8001, 0xFFFF⟩ = some (64 + 0x8001 * 0xFFFE)
      ∧ sht_end ⟨[], 64, 0x8001, 0xFFFF⟩ = none
      ∧ shoff64 hugeTable64 = 64 ∧ shentsize64 hugeTable64 = 0xFFFF
      ∧ shnum64 hugeTable64 = 0xFFFF
      ∧ returned .little ext4_maxbytes ehdr0 hugeTable64 = none
      ∧ returned .little tmpfs_maxbytes ehdr0 hugeTable64 = none := by
  decide

set_option maxRecDepth 100000 in
/-- C7 as stated fails on the 128-byte file `longEntry64`, which declares one
section header entry of 128 bytes at offset 64: the file is shorter than the
declared end of that entry (192), yet the 64 bytes of the section header
structure are read and the call returns 192. -/
theorem truncated_entry_still_read :
    longEntry64.length
        < shoff64 longEntry64 + shentsize64 longEntry64 * (shnum64 longEntry64 - 1)
          + shentsize64 longEntry64
      ∧ returned .little ext4_maxbytes ehdr0 longEntry64 = some 192
      ∧ returned .little ext4_maxbytes ehdr0 longEntry64 ≠ some (-1)
      ∧ returned .little tmpfs_maxbytes ehdr0 longEntry64 = some 192
      ∧ returned .little tmpfs_maxbytes ehdr0 longEntry64 ≠ some (-1) := by
  decide

/-- C7, amended: when the offset `L` of the last section header entry is one
that the seek accepts (count at least 1, `entry_size × (count − 1) < 2^31`,
`L < 2^63`, and `L` not beyond the largest offset of the file system, which is
at least the size of the file) and the file has fewer bytes than `L` plus the
size of the section header structure of its class (40 or 64 bytes),
`get_elf_size` returns -1. -/
theorem truncated_section_header_fails (host : Endian) (lim : Nat) (ehdr : Elf64_Ehdr)
    (f : List Byte)
    (hnum : 1 ≤ shnumOf f)
    (hmul : shentsizeOf f * (shnumOf f - 1) < 2 ^ 31)
    (hL : lastShdrOf f < 2 ^ 63)
    (hseek : lastShdrOf f ≤ max lim f.length)
    (hshort : f.length < lastShdrOf f + shdrSizeOf f) :
    returned host lim ehdr f = some (-1) := by
  by_cases h16 : f.length < 16
  · exact get_elf_size_short_ident host lim ehdr f h16
  have h16 : 16 ≤ f.length := by omega
  have hid := ident_data ehdr f h16
  unfold returned
  rw [get_elf_size_dispatch host lim ehdr f h16]
  by_cases hd : dataByte f ≠ ELFDATA2LSB ∧ dataByte f ≠ ELFDATA2MSB
  · rw [if_pos hd]; rfl
  rw [if_neg hd]
  have hdata : dataByte f = ELFDATA2LSB ∨ dataByte f = ELFDATA2MSB := by
    by_cases h1 : dataByte f = ELFDATA2LSB
    · exact Or.inl h1
    · by_cases h2 : dataByte f = ELFDATA2MSB
      · exact Or.inr h2
      · exact absurd ⟨h1, h2⟩ hd
  by_cases hc32 : classByte f = ELFCLASS32
  · rw [if_pos hc32]
    by_cases h52 : f.length < 52
    · rw [read_elf32_short host _ ⟨lim, f, 16, [.read 0 16]⟩ h52]; rfl
    have h52 : 52 ≤ f.length := by omega
    simp only [shnumOf, shentsizeOf, lastShdrOf, shdrSizeOf, if_pos hc32]
      at hnum hmul hL hseek hshort
    have hoff : last_shdr_offset
        (decoded32 { ehdr with e_ident := f.take 16 ++ ehdr.e_ident.drop 16 } f)
        = some ((lastShdr32 f : Nat) : Int) := last_shdr_offset_eq _ hnum hmul hL
    rw [read_elf32_header host _ ⟨lim, f, 16, [.read 0 16]⟩ (by rw [hid]; exact hdata) hid h52,
      shdr_phase32_short host _ _ _ hoff
        (by rw [fseeko_pos_ok _ _ hseek]; exact hshort)]
    rfl
  · rw [if_neg hc32]
    by_cases hc64 : classByte f = ELFCLASS64
    · rw [if_pos hc64]
      by_cases h64 : f.length < 64
      · rw [read_elf64_short host _ ⟨lim, f, 16, [.read 0 16]⟩ h64]; rfl
      have h64 : 64 ≤ f.length := by omega
      simp only [shnumOf, shentsizeOf, lastShdrOf, shdrSizeOf, if_neg hc32]
        at hnum hmul hL hseek hshort
      have hoff : last_shdr_offset
          (decoded64 { ehdr with e_ident := f.take 16 ++ ehdr.e_ident.drop 16 } f)
          = some ((lastShdr64 f : Nat) : Int) := last_shdr_offset_eq _ hnum hmul hL
      rw [read_elf64_header host _ ⟨lim, f, 16, [.read 0 16]⟩ (by rw [hid]; exact hdata) hid h64,
        shdr_phase64_short host _ _ _ hoff
          (by rw [fseeko_pos_ok _ _ hseek]; exact hshort)]
      rfl
    · rw [if_neg hc64]; rfl

set_option maxRecDepth 100000 in
/-- C7, amended, on the 128-byte file `truncated64`, whose second section
header entry would start at offset 128. -/
theorem truncated_section_header_fails_witness :
    returned .little ext4_maxbytes ehdr0 truncated64 = some (-1) :=
  truncated_section_header_fails .little ext4_maxbytes ehdr0 truncated64 (by decide)
    (by decide) (by decide) (by decide) (by decide)

set_option maxRecDepth 100000 in
/-- C8 fails on the code: `zeroCount64` declares a section header count of
zero (`e_shoff = 128`, `e_shentsize = 64`); the code computes the offset
`128 + 64 * (0 - 1) = 64`, reads the 64 bytes there as a section header and
returns 128 instead of -1. -/
theorem zero_count_not_rejected :
    classByte zeroCount64 = ELFCLASS64 ∧ dataByte zeroCount64 = ELFDATA2LSB
      ∧ shnum64 zeroCount64 = 0
      ∧ returned .little ext4_maxbytes ehdr0 zeroCount64 = some 128
      ∧ returned .little tmpfs_maxbytes ehdr0 zeroCount64 = some 128 := by
  decide

set_option maxRecDepth 100000 in
/-- C9 fails on the code: on the 128-byte file `farTable64` (`e_shoff = 2^63`,
one entry of 64 bytes) the offset of the last section header is negative as an
`off_t`, the seek fails and its result is ignored, the section header is read
from the bytes that follow the ELF header, and the call returns
`64 - 2^63`, a negative value other than -1. -/
theorem negative_size_returned :
    returned .little ext4_maxbytes ehdr0 farTable64 = some (64 - 2 ^ 63)
      ∧ (get_elf_size .little ext4_maxbytes ehdr0 (some farTable64)).map Outcome.trace
        = some [.read 0 16, .seek 0, .read 0 64, .seek (-(2 ^ 63)), .read 64 64]
      ∧ returned .little tmpfs_maxbytes ehdr0 farTable64 = some (64 - 2 ^ 63)
      ∧ (get_elf_size .little tmpfs_maxbytes ehdr0 (some farTable64)).map Outcome.trace
        = some [.read 0 16, .seek 0, .read 0 64, .seek (-(2 ^ 63)), .read 64 64] := by
  decide

/-- C10: on a file of at least 16 bytes whose data-encoding byte is neither 1
nor 2, `get_elf_size` returns -1 after a single read of the 16 bytes of the
identification prefix: no other call is made on the stream, and the fields
`e_shoff`, `e_shentsize` and `e_shnum` of the module-level header are left as
they were. -/
theorem unknown_data_order_fails (host : Endian) (lim : Nat) (ehdr : Elf64_Ehdr) (f : List Byte)
    (hlen : 16 ≤ f.length)
    (hlsb : dataByte f ≠ ELFDATA2LSB) (hmsb : dataByte f ≠ ELFDATA2MSB) :
    get_elf_size host lim ehdr (some f)
      = some ⟨-1, { ehdr with e_ident := f.take 16 ++ ehdr.e_ident.drop 16 },
          [.read 0 16]⟩ := by
  rw [get_elf_size_dispatch host lim ehdr f hlen, if_pos ⟨hlsb, hmsb⟩]

/-- C10 on the 16-byte file `oddOrder`, whose data-encoding byte is 3. -/
theorem unknown_data_order_fails_witness :
    get_elf_size .big ext4_maxbytes ehdr0 (some oddOrder)
      = some ⟨-1, { ehdr0 with e_ident := oddOrder.take 16 ++ ehdr0.e_ident.drop 16 },
          [.read 0 16]⟩ :=
  unknown_data_order_fails .big ext4_maxbytes ehdr0 oddOrder (by decide) (by decide) (by decide)

/-- C11: on a file of at least 16 bytes with a recognised data encoding whose
class byte is neither 1 nor 2, `get_elf_size` returns -1 after the single read
of the identification prefix: neither `read_elf32` nor `read_elf64` runs, as
no seek and no further read is made on the stream and the fields `e_shoff`,
`e_shentsize` and `e_shnum` of the module-level header are left as they
were. -/
theorem unknown_class_fails (host : Endian) (lim : Nat) (ehdr : Elf64_Ehdr) (f : List Byte)
    (hlen : 16 ≤ f.length)
    (hdata : dataByte f = ELFDATA2LSB ∨ dataByte f = ELFDATA2MSB)
    (h32 : classByte f ≠ ELFCLASS32) (h64 : classByte f ≠ ELFCLASS64) :
    get_elf_size host lim ehdr (some f)
      = some ⟨-1, { ehdr with e_ident := f.take 16 ++ ehdr.e_ident.drop 16 },
          [.read 0 16]⟩ := by
  have h1 : ¬ (dataByte f ≠ ELFDATA2LSB ∧ dataByte f ≠ ELFDATA2MSB) := by
    rcases hdata with h | h <;> simp [h]
  rw [get_elf_size_dispatch host lim ehdr f hlen, if_neg h1, if_neg h32, if_neg h64]

/-- C11 on the 16-byte file `oddClass`, whose class byte is 3. -/
theorem unknown_class_fails_witness :
    get_elf_size .little ext4_maxbytes ehdr0 (some oddClass)
      = some ⟨-1, { ehdr0 with e_ident := oddClass.take 16 ++ ehdr0.e_ident.drop 16 },
          [.read 0 16]⟩ :=
  unknown_class_fails .little ext4_maxbytes ehdr0 oddClass (by decide) (by decide) (by decide)
    (by decide)

/-- C12: `get_elf_size` returns -1 on every file shorter than the 16-byte
identification prefix, and on every file with a recognised data encoding that
is shorter than the ELF header of its class: 52 bytes for the 32-bit class, 64
bytes for the 64-bit class. -/
theorem short_file_fails (host : Endian) (lim : Nat) (ehdr : Elf64_Ehdr) (f : List Byte)
    (h : f.length < EI_NIDENT
      ∨ ((dataByte f = ELFDATA2LSB ∨ dataByte f = ELFDATA2MSB)
        ∧ ((classByte f = ELFCLASS32 ∧ f.length < sizeof_Elf32_Ehdr)
          ∨ (classByte f = ELFCLASS64 ∧ f.length < sizeof_Elf64_Ehdr)))) :
    returned host lim ehdr f = some (-1) := by
  by_cases h16 : f.length < 16
  · exact get_elf_size_short_ident host lim ehdr f h16
  have h16 : 16 ≤ f.length := by omega
  rcases h with h | ⟨hdata, hc⟩
  · exact absurd (show f.length < 16 from h) (by omega)
  have h1 : ¬ (dataByte f ≠ ELFDATA2LSB ∧ dataByte f ≠ ELFDATA2MSB) := by
    rcases hdata with h | h <;> simp [h]
  unfold returned
  rw [get_elf_size_dispatch host lim ehdr f h16, if_neg h1]
  rcases hc with ⟨hc, hl⟩ | ⟨hc, hl⟩
  · rw [if_pos hc, read_elf32_short host _ ⟨lim, f, 16, [.read 0 16]⟩ hl]
    rfl
  · have h2 : ¬ classByte f = ELFCLASS32 := by rw [hc]; decide
    rw [if_neg h2, if_pos hc, read_elf64_short host _ ⟨lim, f, 16, [.read 0 16]⟩ hl]
    rfl

/-- C12 on the first 60 bytes of a 64-bit header, and on a file of 3 bytes. -/
theorem short_file_fails_witness :
    returned .little ext4_maxbytes ehdr0 shortHeader64 = some (-1)
      ∧ returned .little ext4_maxbytes ehdr0 [0x7f, 0x45, 0x4c] = some (-1) :=
  ⟨short_file_fails .little ext4_maxbytes ehdr0 shortHeader64
      (Or.inr ⟨Or.inl (by decide), Or.inr ⟨by decide, by decide⟩⟩),
    short_file_fails .little ext4_maxbytes ehdr0 [0x7f, 0x45, 0x4c] (Or.inl (by decide))⟩

/-- C13: the byte swaps are involutions on values of their width, and when the
data encoding of the file is not the host's, applying `file16_to_cpu`,
`file32_to_cpu` or `file64_to_cpu` twice gives back the original value. -/
theorem byte_swap_round_trip (host : Endian) (ehdr : Elf64_Ehdr) (v16 v32 v64 : Nat)
    (h16 : v16 < 2 ^ 16) (h32 : v32 < 2 ^ 32) (h64 : v64 < 2 ^ 64) :
    bswap_16 (bswap_16 v16) = v16 ∧ bswap_32 (bswap_32 v32) = v32
      ∧ bswap_64 (bswap_64 v64) = v64
      ∧ ((ehdr.e_ident.getD EI_DATA 0).val ≠ ELFDATANATIVE host →
          file16_to_cpu host ehdr (file16_to_cpu host ehdr v16) = v16
          ∧ file32_to_cpu host ehdr (file32_to_cpu host ehdr v32) = v32
          ∧ file64_to_cpu host ehdr (file64_to_cpu host ehdr v64) = v64) := by
  refine ⟨bswap_16_twice v16 h16, bswap_32_twice v32 h32, bswap_64_twice v64 h64, ?_⟩
  intro hne
  have a16 := bswap_16_lt v16 h16
  have a32 := bswap_32_lt v32 h32
  have a64 := bswap_64_lt v64 h64
  refine ⟨?_, ?_, ?_⟩
  · rw [file16_to_cpu_foreign host ehdr _ hne, file16_to_cpu_foreign host ehdr _ hne,
      u16_of_lt v16 h16, u16_of_lt _ a16, u16_of_lt _ a16, bswap_16_twice v16 h16,
      u16_of_lt v16 h16]
  · rw [file32_to_cpu_foreign host ehdr _ hne, file32_to_cpu_foreign host ehdr _ hne,
      u32_of_lt v32 h32, u32_of_lt _ a32, u32_of_lt _ a32, bswap_32_twice v32 h32,
      u32_of_lt v32 h32]
  · rw [file64_to_cpu_foreign host ehdr _ hne, file64_to_cpu_foreign host ehdr _ hne,
      u64_of_lt v64 h64, u64_of_lt _ a64, u64_of_lt _ a64, bswap_64_twice v64 h64,
      u64_of_lt v64 h64]

/-- C13 on the values `0x1234`, `0x12345678` and `0x123456789ABCDEF0`, with a
big-endian file on a little-endian host. -/
theorem byte_swap_round_trip_witness :
    bswap_16 (bswap_16 0x1234) = 0x1234 ∧ bswap_32 (bswap_32 0x12345678) = 0x12345678
      ∧ bswap_64 (bswap_64 0x123456789ABCDEF0) = 0x123456789ABCDEF0
      ∧ file16_to_cpu .little ehdrMSB (file16_to_cpu .little ehdrMSB 0x1234) = 0x1234
      ∧ file32_to_cpu .little ehdrMSB (file32_to_cpu .little ehdrMSB 0x12345678)
        = 0x12345678
      ∧ file64_to_cpu .little ehdrMSB (file64_to_cpu .little ehdrMSB 0x123456789ABCDEF0)
        = 0x123456789ABCDEF0 :=
  have h := byte_swap_round_trip .little ehdrMSB 0x1234 0x12345678 0x123456789ABCDEF0
    (by decide) (by decide) (by decide)
  ⟨h.1, h.2.1, h.2.2.1, h.2.2.2 (by decide)⟩

/-- C14: on a value of its width, `file16_to_cpu`, `file32_to_cpu` and
`file64_to_cpu` return the value itself when the data encoding of the file is
the host's; otherwise they return a value of the same width whose byte `i` is
byte `N/8 − 1 − i` of the argument. -/
theorem file_to_cpu_reverses_bytes (host : Endian) (ehdr : Elf64_Ehdr) (v16 v32 v64 : Nat)
    (h16 : v16 < 2 ^ 16) (h32 : v32 < 2 ^ 32) (h64 : v64 < 2 ^ 64) :
    ((ehdr.e_ident.getD EI_DATA 0).val = ELFDATANATIVE host →
        file16_to_cpu host ehdr v16 = v16 ∧ file32_to_cpu host ehdr v32 = v32
        ∧ file64_to_cpu host ehdr v64 = v64)
      ∧ ((ehdr.e_ident.getD EI_DATA 0).val ≠ ELFDATANATIVE host →
        (file16_to_cpu host ehdr v16 < 2 ^ 16
          ∧ ∀ i, i < 2 → byteAt (file16_to_cpu host ehdr v16) i = byteAt v16 (1 - i))
        ∧ (file32_to_cpu host ehdr v32 < 2 ^ 32
          ∧ ∀ i, i < 4 → byteAt (file32_to_cpu host ehdr v32) i = byteAt v32 (3 - i))
        ∧ (file64_to_cpu host ehdr v64 < 2 ^ 64
          ∧ ∀ i, i < 8 → byteAt (file64_to_cpu host ehdr v64) i = byteAt v64 (7 - i))) := by
  constructor
  · intro heq
    exact ⟨by rw [file16_to_cpu_native host ehdr _ heq, u16_of_lt v16 h16],
      by rw [file32_to_cpu_native host ehdr _ heq, u32_of_lt v32 h32],
      by rw [file64_to_cpu_native host ehdr _ heq, u64_of_lt v64 h64]⟩
  · intro hne
    rw [file16_to_cpu_foreign host ehdr _ hne, file32_to_cpu_foreign host ehdr _ hne,
      file64_to_cpu_foreign host ehdr _ hne, swap16_nat v16 h16, swap32_nat v32 h32,
      swap64_nat v64 h64]
    refine ⟨⟨?_, ?_⟩, ⟨?_, ?_⟩, ⟨?_, ?_⟩⟩
    · have := leVal_reverse_lt 2 v16; omega
    · intro i hi; exact byteAt_swapped 2 v16 i (by omega) hi
    · have := leVal_reverse_lt 4 v32; omega
    · intro i hi; exact byteAt_swapped 4 v32 i (by omega) hi
    · have := leVal_reverse_lt 8 v64; omega
    · intro i hi; exact byteAt_swapped 8 v64 i (by omega) hi

/-- C14 on the values `0x1234`, `0x12345678` and `0x123456789ABCDEF0` on a
little-endian host: with a little-endian file they are returned unchanged,
with a big-endian file the results are `0x3412`, `0x78563412` and
`0xF0DEBC9A78563412`, byte 2 of the last being byte 5 of the argument. -/
theorem file_to_cpu_reverses_bytes_witness :
    (file16_to_cpu .little ehdrLSB 0x1234 = 0x1234
        ∧ file32_to_cpu .little ehdrLSB 0x12345678 = 0x12345678
        ∧ file64_to_cpu .little ehdrLSB 0x123456789ABCDEF0 = 0x123456789ABCDEF0)
      ∧ file16_to_cpu .little ehdrMSB 0x1234 = 0x3412
      ∧ file32_to_cpu .little ehdrMSB 0x12345678 = 0x78563412
      ∧ file64_to_cpu .little ehdrMSB 0x123456789ABCDEF0 = 0xF0DEBC9A78563412
      ∧ byteAt (file64_to_cpu .little ehdrMSB 0x123456789ABCDEF0) 2
        = byteAt 0x123456789ABCDEF0 (7 - 2) :=
  ⟨(file_to_cpu_reverses_bytes .little ehdrLSB 0x1234 0x12345678 0x123456789ABCDEF0
      (by decide) (by decide) (by decide)).1 (by decide),
    by decide, by decide, by decide,
    ((file_to_cpu_reverses_bytes .little ehdrMSB 0x1234 0x12345678 0x123456789ABCDEF0
      (by decide) (by decide) (by decide)).2 (by decide)).2.2.2 2 (by decide)⟩

/-- C15: the value `get_elf_size` returns does not depend on what an earlier
call left in the module-level header: for any two initial contents of it, and
any file (or a file that cannot be opened), the returned values are equal. -/
theorem result_independent_of_static_header (host : Endian) (lim : Nat) (e1 e2 : Elf64_Ehdr)
    (fname : Option (List Byte)) :
    (get_elf_size host lim e1 fname).map Outcome.ret
      = (get_elf_size host lim e2 fname).map Outcome.ret := by
  cases fname with
  | none => rfl
  | some f =>
    by_cases h16 : f.length < 16
    · have a := get_elf_size_short_ident host lim e1 f h16
      have b := get_elf_size_short_ident host lim e2 f h16
      unfold returned at a b
      rw [a, b]
    have h16 : 16 ≤ f.length := by omega
    have hid1 := ident_data e1 f h16
    have hid2 := ident_data e2 f h16
    rw [get_elf_size_dispatch host lim e1 f h16, get_elf_size_dispatch host lim e2 f h16]
    by_cases hd : dataByte f ≠ ELFDATA2LSB ∧ dataByte f ≠ ELFDATA2MSB
    · rw [if_pos hd, if_pos hd]; rfl
    rw [if_neg hd, if_neg hd]
    have hdata : dataByte f = ELFDATA2LSB ∨ dataByte f = ELFDATA2MSB := by
      by_cases h1 : dataByte f = ELFDATA2LSB
      · exact Or.inl h1
      · by_cases h2 : dataByte f = ELFDATA2MSB
        · exact Or.inr h2
        · exact absurd ⟨h1, h2⟩ hd
    by_cases hc32 : classByte f = ELFCLASS32
    · rw [if_pos hc32, if_pos hc32]
      by_cases h52 : f.length < 52
      · rw [read_elf32_short host _ ⟨lim, f, 16, [.read 0 16]⟩ h52,
          read_elf32_short host _ ⟨lim, f, 16, [.read 0 16]⟩ h52]
        rfl
      have h52 : 52 ≤ f.length := by omega
      rw [read_elf32_header host _ ⟨lim, f, 16, [.read 0 16]⟩ (by rw [hid1]; exact hdata) hid1 h52,
        read_elf32_header host _ ⟨lim, f, 16, [.read 0 16]⟩ (by rw [hid2]; exact hdata) hid2 h52,
        map_ret_map, map_ret_map]
      exact shdr_phase32_congr host _ _ _ _ (by rw [decoded32, decoded32, hid1, hid2])
        rfl rfl rfl (fun _ _ => rfl) (fun _ _ => rfl)
    · rw [if_neg hc32, if_neg hc32]
      by_cases hc64 : classByte f = ELFCLASS64
      · rw [if_pos hc64, if_pos hc64]
        by_cases h64 : f.length < 64
        · rw [read_elf64_short host _ ⟨lim, f, 16, [.read 0 16]⟩ h64,
            read_elf64_short host _ ⟨lim, f, 16, [.read 0 16]⟩ h64]
          rfl
        have h64 : 64 ≤ f.length := by omega
        rw [read_elf64_header host _ ⟨lim, f, 16, [.read 0 16]⟩ (by rw [hid1]; exact hdata) hid1
            h64,
          read_elf64_header host _ ⟨lim, f, 16, [.read 0 16]⟩ (by rw [hid2]; exact hdata) hid2 h64,
          map_ret_map, map_ret_map]
        exact shdr_phase64_congr host _ _ _ _ (by rw [decoded64, decoded64, hid1, hid2])
          rfl rfl rfl (fun _ _ => rfl) (fun _ _ => rfl)
      · rw [if_neg hc64, if_neg hc64]; rfl

set_option maxRecDepth 100000 in
/-- C16 as stated fails on the files `slimA` and `slimB`: they have the same
64 bytes of ELF header, which declare one section header entry of 8 bytes at
offset 64, and the same 8 bytes in that entry, which lies inside both; yet the
code reads the 64 bytes of the section header structure at that offset, which
differ beyond the declared entry, and the calls return 72 and 288. -/
theorem declared_entry_not_enough :
    classByte slimA = ELFCLASS64 ∧ slimA.take 64 = slimB.take 64
      ∧ shentsize64 slimA = 8 ∧ lastShdr64 slimA = 64
      ∧ (slimA.drop 64).take 8 = (slimB.drop 64).take 8
      ∧ 64 + 8 ≤ slimA.length ∧ 64 + 8 ≤ slimB.length
      ∧ returned .little ext4_maxbytes ehdr0 slimA = some 72
      ∧ returned .little ext4_maxbytes ehdr0 slimB = some 288
      ∧ returned .little tmpfs_maxbytes ehdr0 slimA = some 72
      ∧ returned .little tmpfs_maxbytes ehdr0 slimB = some 288 := by
  decide

/-- C16, amended: two files with the same ELF header bytes (the first 52 bytes
for the 32-bit class, 64 otherwise) and the same bytes in the section header
structure (40 or 64 bytes, whatever entry size the header declares) at the
offset `L = section_header_offset + entry_size × (count − 1)` of the last
section header entry, which lies inside the first file (and with it inside the
second), with `entry_size × count < 2^31`, are resolved to the same value, and
that value is defined, whatever else differs between the files. The length of
the file is an `off_t` value, as the size of every file is. -/
theorem result_depends_on_headers_only (host : Endian) (lim : Nat) (ehdr : Elf64_Ehdr)
    (f g : List Byte) (L : Nat)
    (hhdr : f.take (ehdrSizeOf f) = g.take (ehdrSizeOf f))
    (hL : (L : Int)
      = (shoffOf f : Int) + (shentsizeOf f : Int) * ((shnumOf f : Int) - 1))
    (hmul : shentsizeOf f * shnumOf f < 2 ^ 31)
    (hin : L + shdrSizeOf f ≤ f.length)
    (hsec : (f.drop L).take (shdrSizeOf f) = (g.drop L).take (shdrSizeOf f))
    (hsize : f.length < 2 ^ 63) :
    returned host lim ehdr f = returned host lim ehdr g
      ∧ returned host lim ehdr f ≠ none := by
  refine ⟨?_, returned_defined host lim ehdr f hmul⟩
  have hH : 52 ≤ ehdrSizeOf f := by unfold ehdrSizeOf; split <;> decide
  by_cases hshort : f.length < ehdrSizeOf f
  · rw [take_eq_of_short f g _ hhdr hshort]
  have hf : ehdrSizeOf f ≤ f.length := by omega
  have hg : ehdrSizeOf f ≤ g.length := length_of_take_eq f g _ hhdr hf
  have hf16 : 16 ≤ f.length := by omega
  have hg16 : 16 ≤ g.length := by omega
  have hdat : dataByte g = dataByte f := by
    unfold dataByte
    rw [getD_of_take_eq f g _ EI_DATA hhdr (by show 5 < ehdrSizeOf f; omega)]
  have hcls : classByte g = classByte f := by
    unfold classByte
    rw [getD_of_take_eq f g _ EI_CLASS hhdr (by show 4 < ehdrSizeOf f; omega)]
  have ht16 : g.take 16 = f.take 16 := by
    have := slice_of_take_eq f g _ 0 16 hhdr (by omega)
    simpa using this.symm
  have hidf := ident_data ehdr f hf16
  have hgin : L + shdrSizeOf f ≤ g.length := by
    have hS : 0 < shdrSizeOf f := by unfold shdrSizeOf; split <;> decide
    have hl := slice_length f L _ hin
    rw [hsec] at hl
    exact slice_complete g L _ hS hl
  unfold returned
  rw [get_elf_size_dispatch host lim ehdr f hf16, get_elf_size_dispatch host lim ehdr g hg16,
    hdat, hcls, ht16]
  by_cases hd : dataByte f ≠ ELFDATA2LSB ∧ dataByte f ≠ ELFDATA2MSB
  · rw [if_pos hd, if_pos hd]
  rw [if_neg hd, if_neg hd]
  have hdata : dataByte f = ELFDATA2LSB ∨ dataByte f = ELFDATA2MSB := by
    by_cases h1 : dataByte f = ELFDATA2LSB
    · exact Or.inl h1
    · by_cases h2 : dataByte f = ELFDATA2MSB
      · exact Or.inr h2
      · exact absurd ⟨h1, h2⟩ hd
  by_cases hc32 : classByte f = ELFCLASS32
  · rw [if_pos hc32, if_pos hc32]
    simp only [ehdrSizeOf, shoffOf, shentsizeOf, shnumOf, shdrSizeOf, if_pos hc32]
      at hhdr hL hin hgin hsec hf hg
    rw [read_elf32_header host _ ⟨lim, f, 16, [.read 0 16]⟩ (by rw [hidf]; exact hdata) hidf
        hf,
      read_elf32_header host _ ⟨lim, g, 16, [.read 0 16]⟩ (by rw [hidf]; exact hdata)
        (by rw [hidf]; exact hdat.symm) hg,
      map_ret_map, map_ret_map]
    have hdec : decoded32 { ehdr with e_ident := f.take 16 ++ ehdr.e_ident.drop 16 } g
        = decoded32 { ehdr with e_ident := f.take 16 ++ ehdr.e_ident.drop 16 } f := by
      unfold decoded32
      rw [fileField_of_take_eq f g 52 32 4 hhdr (by omega) (by omega),
        fileField_of_take_eq f g 52 46 2 hhdr (by omega) (by omega),
        fileField_of_take_eq f g 52 48 2 hhdr (by omega) (by omega)]
    simp only [hdec]
    refine shdr_phase32_congr host _ _ _ _ rfl rfl rfl rfl ?_ ?_
    · intro off hoff
      rw [last_shdr_offset_exact _ L off hL (by omega) hoff,
        fseeko_pos_inside _ L (by show L ≤ g.length; omega),
        fseeko_pos_inside _ L (by show L ≤ f.length; omega)]
    · intro off hoff
      rw [last_shdr_offset_exact _ L off hL (by omega) hoff,
        fseeko_pos_inside _ L (by show L ≤ f.length; omega)]
      exact hsec.symm
  · rw [if_neg hc32, if_neg hc32]
    by_cases hc64 : classByte f = ELFCLASS64
    · rw [if_pos hc64, if_pos hc64]
      simp only [ehdrSizeOf, shoffOf, shentsizeOf, shnumOf, shdrSizeOf, if_neg hc32]
        at hhdr hL hin hgin hsec hf hg
      rw [read_elf64_header host _ ⟨lim, f, 16, [.read 0 16]⟩ (by rw [hidf]; exact hdata)
          hidf hf,
        read_elf64_header host _ ⟨lim, g, 16, [.read 0 16]⟩ (by rw [hidf]; exact hdata)
          (by rw [hidf]; exact hdat.symm) hg,
        map_ret_map, map_ret_map]
      have hdec : decoded64 { ehdr with e_ident := f.take 16 ++ ehdr.e_ident.drop 16 } g
          = decoded64 { ehdr with e_ident := f.take 16 ++ ehdr.e_ident.drop 16 } f := by
        unfold decoded64
        rw [fileField_of_take_eq f g 64 40 8 hhdr (by omega) (by omega),
          fileField_of_take_eq f g 64 58 2 hhdr (by omega) (by omega),
          fileField_of_take_eq f g 64 60 2 hhdr (by omega) (by omega)]
      simp only [hdec]
      refine shdr_phase64_congr host _ _ _ _ rfl rfl rfl rfl ?_ ?_
      · intro off hoff
        rw [last_shdr_offset_exact _ L off hL (by omega) hoff,
          fseeko_pos_inside _ L (by show L ≤ g.length; omega),
          fseeko_pos_inside _ L (by show L ≤ f.length; omega)]
      · intro off hoff
        rw [last_shdr_offset_exact _ L off hL (by omega) hoff,
          fseeko_pos_inside _ L (by show L ≤ f.length; omega)]
        exact hsec.symm
    · rw [if_neg hc64, if_neg hc64]

set_option maxRecDepth 100000 in
/-- C16, amended, on `twinA` and `twinB`, which share the ELF header and the
section header at offset 128 and differ in length and in their other bytes:
both are resolved to 192. -/
theorem result_depends_on_headers_only_witness :
    (returned .little ext4_maxbytes ehdr0 twinA = returned .little ext4_maxbytes ehdr0 twinB
        ∧ returned .little ext4_maxbytes ehdr0 twinA ≠ none)
      ∧ returned .little ext4_maxbytes ehdr0 twinA = some 192
      ∧ twinA.length ≠ twinB.length :=
  ⟨result_depends_on_headers_only .little ext4_maxbytes ehdr0 twinA twinB 128 (by decide)
      (by decide) (by decide) (by decide) (by decide) (by decide),
    by decide, by decide⟩

set_option maxRecDepth 100000 in
/-- C17 fails on the code: `wrappedTable64` has a complete 64-bit header with
`e_shoff = 2^64 - 64` and one entry, so that the offset of the last section
header entry lies far beyond the end of the 128-byte file. As an `off_t` the
offset is -64, the seek fails and its result is ignored, the section header is
read at position 64, where the stream stands after the ELF header, and the
call returns `0x120` instead of -1, on any file system. The same happens with
an offset that is a valid `off_t` but lies beyond the largest offset of the
file system: on ext4 the file `beyond62` (`e_shoff = 2^62`) is resolved to
`2^62 + 64`; on tmpfs, where that offset is accepted, the read is short. -/
theorem seek_failure_reads_elsewhere :
    classByte wrappedTable64 = ELFCLASS64 ∧ dataByte wrappedTable64 = ELFDATA2LSB
      ∧ wrappedTable64.length = 128
      ∧ wrappedTable64.length ≤ lastShdr64 wrappedTable64
      ∧ returned .little ext4_maxbytes ehdr0 wrappedTable64 = some 0x120
      ∧ (get_elf_size .little ext4_maxbytes ehdr0 (some wrappedTable64)).map Outcome.trace
        = some [.read 0 16, .seek 0, .read 0 64, .seek (-64), .read 64 64]
      ∧ returned .little tmpfs_maxbytes ehdr0 wrappedTable64 = some 0x120
      ∧ (get_elf_size .little tmpfs_maxbytes ehdr0 (some wrappedTable64)).map Outcome.trace
        = some [.read 0 16, .seek 0, .read 0 64, .seek (-64), .read 64 64]
      ∧ beyond62.length ≤ lastShdr64 beyond62
      ∧ returned .little ext4_maxbytes ehdr0 beyond62 = some (2 ^ 62 + 64)
      ∧ returned .little tmpfs_maxbytes ehdr0 beyond62 = some (-1) := by
  decide

end ElfSize
